import Mathlib

/-!
Shallow embedding of the `seqsim` sequence-similarity library
(`src/seqsim/*.py`) and verification of its specification claims.

Conventions used throughout this development:

* Python sequences are modelled as `List α`; strings as `List Char`.
* Python `int`/`float` arithmetic is modelled over `ℚ` (all values that
  occur in the library are small dyadic rationals, for which float
  arithmetic is exact, apart from the final square root of MMCWPA which
  is modelled over `ℝ`).
* Fallible Python code (code that can raise `ZeroDivisionError` or
  `ValueError`) is modelled with `Option`: `none` is a raised exception.
* `while` loops are modelled either by structural recursion or by
  recursion on an explicit bound (`fuel`) that provably dominates the
  number of iterations of the source loop; the bound argument is given
  in a comment next to each such definition.

Definitions keep the Python names (`sequence_find`, `_wagner_fischer`,
`_mmcwpa`, ...) and live in namespaces named after the source modules
(`common`, `edit`, `token`, `similarity`).
-/

namespace Seqsim

/-- Triangular number `n * (n + 1) // 2`, the formula the library writes
inline for Birnbaum self-similarity scores (Python `//` and `/` agree
here because `n * (n + 1)` is even). -/

def tri (n : ℕ) : ℕ := n * (n + 1) / 2

/-- Python `min` over a non-empty candidate tuple, as used by
`_wagner_fischer` on the cost-candidate lists (the `[]` case never
arises: every cost function always emits at least the insertion and the
substitution candidate). -/

def minList : List ℚ → ℚ
  | [] => 0
  | a :: t => t.foldl min a

/-- Python `round` (banker's rounding, ties to the even integer), used by
the fragile-ends and stemmatological zone boundaries.  The source
computes the argument with floats; we model the exact rational value
(for the claims proved below the zone boundaries are irrelevant: every
theorem about the fragile/stemmatological methods holds for arbitrary
zone predicates). -/

def pyRound (q : ℚ) : ℤ :=
  let f := ⌊q⌋
  let r := q - f
  if r < 1 / 2 then f
  else if 1 / 2 < r then f + 1
  else if Even f then f else f + 1

namespace common

variable {α : Type}

/-- Embedding of `common.sequence_find`: the first index `i` such that
`hay[i : i + len(needle)] == needle`, scanning `i` over
`range(len(hay) - len(needle) + 1)` (empty when the needle is longer
than the hay, exactly as Python's `range` of a non-positive bound). -/

def sequence_find [DecidableEq α] (hay needle : List α) : Option ℕ :=
  (List.range (hay.length + 1 - needle.length)).find?
    (fun i => decide ((hay.drop i).take needle.length = needle))

/-- One step of the generalized Wagner-Fischer fill of `common._wagner_fischer`.

The source fills the `(m+1) × (n+1)` matrix in place, column by column;
since cell `(i, j)` only reads cells `(a, b)` with `a + b < i + j`
(deletion `(i-1, j)` and block deletions `(i-n, j)`, insertion
`(i, j-1)`, substitution `(i-1, j-1)`, transposition `(i-2, j-2)`), the
fill is equivalent to this functional recursion.  `fuel` dominates the
recursion depth (`wfAux_congr` below shows the value of cell `(i, j)` is
the same for every `fuel ≥ i + j`); row 0 and column 0 hold the seed
matrix built by the caller (the `d` argument of the source, or the
classical boundary costs when absent). -/

def wfAux (seed : ℕ → ℕ → ℚ) (cands : (ℕ → ℕ → ℚ) → ℕ → ℕ → List ℚ) :
    ℕ → ℕ → ℕ → ℚ
  | 0, i, j => seed i j
  | fuel + 1, i, j =>
    if i = 0 ∨ j = 0 then seed i j
    else minList (cands (fun a b => wfAux seed cands fuel a b) i j)

/-- Embedding of `common._wagner_fischer`: fill the matrix, return the
bottom-right cell `d[m][n]`. -/

def _wagner_fischer (x y : List α) (cands : (ℕ → ℕ → ℚ) → ℕ → ℕ → List ℚ)
    (seed : ℕ → ℕ → ℚ) : ℚ :=
  wfAux seed cands (x.length + y.length) x.length y.length

/-- The classical boundary seed built by `_wagner_fischer` when no seed
matrix is supplied: `d[i][0] = i`, `d[0][j] = j`. -/

def defaultSeed : ℕ → ℕ → ℚ := fun i j => if i = 0 then (j : ℚ) else (i : ℚ)

/-- A cost function is local when cell `(i, j)` only reads matrix cells
`(a, b)` with `a + b < i + j`; every cost function of the library is. -/

def CandLocal (cands : (ℕ → ℕ → ℚ) → ℕ → ℕ → List ℚ) : Prop :=
  ∀ (d₁ d₂ : ℕ → ℕ → ℚ) (i j : ℕ), 1 ≤ i → 1 ≤ j →
    (∀ a b, a + b < i + j → d₁ a b = d₂ a b) → cands d₁ i j = cands d₂ i j

/-- The matrix as a function: `wfM seed cands i j` is the value of cell
`(i, j)` of the filled Wagner-Fischer matrix. -/

def wfM (seed : ℕ → ℕ → ℚ) (cands : (ℕ → ℕ → ℚ) → ℕ → ℕ → List ℚ)
    (i j : ℕ) : ℚ :=
  wfAux seed cands (i + j) i j

end common

namespace edit

variable {α : Type} [DecidableEq α] [Inhabited α]

/-- Embedding of `edit._levenshtein_costs`: candidate costs
deletion / insertion / substitution for cell `(i, j)` (the source indexes
`seq_x[i - 1]`, only ever called with `1 ≤ i ≤ m`, `1 ≤ j ≤ n`, where
`List.getD` coincides with Python indexing). -/

def _levenshtein_costs (x y : List α) (d : ℕ → ℕ → ℚ) (i j : ℕ) : List ℚ :=
  let substitution_cost : ℚ :=
    if x.getD (i - 1) default = y.getD (j - 1) default then 0 else 1
  [d (i - 1) j + 1, d i (j - 1) + 1, d (i - 1) (j - 1) + substitution_cost]

/-- Embedding of `edit._levdamerau_costs`: Levenshtein candidates plus
the transposition candidate when the last two elements are swapped. -/

def _levdamerau_costs (x y : List α) (d : ℕ → ℕ → ℚ) (i j : ℕ) : List ℚ :=
  let substitution_cost : ℚ :=
    if x.getD (i - 1) default = y.getD (j - 1) default then 0 else 1
  [d (i - 1) j + 1, d i (j - 1) + 1, d (i - 1) (j - 1) + substitution_cost] ++
    (if 1 < i ∧ 1 < j ∧ x.getD (i - 1) default = y.getD (j - 2) default ∧
        x.getD (i - 2) default = y.getD (j - 1) default
      then [d (i - 2) (j - 2) + 1] else [])

/-- The fragile-ends discount zone `i <= round(0.1*m) or i >= round(0.9*m)`
(the source computes the boundaries with Python float `round`; we use the
exact rational value — every theorem below about the fragile-ends method
holds for an arbitrary zone predicate, see `fragile_like_bounds`). -/

def fragileZone (m i : ℕ) : Bool :=
  decide ((i : ℤ) ≤ pyRound ((1 / 10 : ℚ) * m)) ||
    decide (pyRound ((9 / 10 : ℚ) * m) ≤ (i : ℤ))

/-- Column 0 of `edit._fragile_ends_initial_matrix`:
`d[i][0] = d[i-1][0] + (0.5 if in zone else 1)`. -/

def _fragile_ends_col (m : ℕ) : ℕ → ℚ
  | 0 => 0
  | i + 1 => _fragile_ends_col m i + (if fragileZone m (i + 1) then 1 / 2 else 1)

/-- Embedding of `edit._fragile_ends_initial_matrix` (as a boundary
function: row 0 is `j`, column 0 the discounted deletion seed). -/

def _fragile_ends_initial_matrix (x y : List α) : ℕ → ℕ → ℚ :=
  fun i j =>
    if i = 0 then (j : ℚ)
    else if j = 0 then _fragile_ends_col x.length i
    else 0

/-- Embedding of `edit._fragile_ends_costs`: insertion, substitution, and
deletion discounted to `0.5` inside the fragile zone. -/

def _fragile_ends_costs (x y : List α) (d : ℕ → ℕ → ℚ) (i j : ℕ) : List ℚ :=
  let substitution_cost : ℚ :=
    if x.getD (i - 1) default = y.getD (j - 1) default then 0 else 1
  [d i (j - 1) + 1, d (i - 1) (j - 1) + substitution_cost,
    d (i - 1) j + (if fragileZone x.length i then 1 / 2 else 1)]

/-- Embedding of `edit._bulk_delete_initial_matrix` (as a boundary
function): `d[i][0] = int(i / max_del_len)`, plus one if there is a
remainder — i.e. `⌈i / max_del_len⌉` blocks.  The source raises
`ZeroDivisionError` for `max_del_len = 0`; every theorem below assumes
`1 ≤ max_del_len` (the library default is 5). -/

def _bulk_delete_initial_matrix (x y : List α) (max_del_len : ℕ) :
    ℕ → ℕ → ℚ :=
  fun i j =>
    if i = 0 then (j : ℚ)
    else if j = 0 then
      ((i / max_del_len + if i % max_del_len = 0 then 0 else 1 : ℕ) : ℚ)
    else 0

/-- Embedding of the closure produced by `edit._bulk_delete_costs_factory`:
insertion, substitution, and one deletion candidate per block length
`n ∈ range(1, min(max_del_len + 1, i))`. -/

def _bulk_delete_costs (max_del_len : ℕ) (x y : List α) (d : ℕ → ℕ → ℚ)
    (i j : ℕ) : List ℚ :=
  let substitution_cost : ℚ :=
    if x.getD (i - 1) default = y.getD (j - 1) default then 0 else 1
  [d i (j - 1) + 1, d (i - 1) (j - 1) + substitution_cost] ++
    (List.range' 1 (min (max_del_len + 1) i - 1)).map (fun n => d (i - n) j + 1)

/-- The stemmatological fragile zone
`i <= round(m * frag_start / 100) or i >= round(m * (100 - frag_end) / 100)`
(same float-`round` caveat as `fragileZone`). -/

def stemZone (m : ℕ) (frag_start frag_end : ℚ) (i : ℕ) : Bool :=
  decide ((i : ℤ) ≤ pyRound (m * frag_start / 100)) ||
    decide (pyRound (m * (100 - frag_end) / 100) ≤ (i : ℤ))

/-- Column 0 of `edit._stemmatological_initial_matrix`:
`d[i][0] = d[i - min(i, max_del_len)][0] + (0.5 if in zone else 1.0)`.
The first argument is recursion fuel: the source loop steps `i` down by
`min(i, max_del_len) ≥ 1` per round (for `max_del_len ≥ 1`), so `i`
itself dominates the recursion depth; see `_stemmatological_col_congr`. -/

def _stemmatological_col (max_del_len : ℕ) (zone : ℕ → Bool) : ℕ → ℕ → ℚ
  | 0, _ => 0
  | fuel + 1, i =>
    if i = 0 then 0
    else
      _stemmatological_col max_del_len zone fuel (i - min i max_del_len) +
        (if zone i then 1 / 2 else 1)

/-- Embedding of `edit._stemmatological_initial_matrix` (as a boundary
function). -/

def _stemmatological_initial_matrix (x y : List α) (max_del_len : ℕ)
    (frag_start frag_end : ℚ) : ℕ → ℕ → ℚ :=
  fun i j =>
    if i = 0 then (j : ℚ)
    else if j = 0 then
      _stemmatological_col max_del_len (stemZone x.length frag_start frag_end) i i
    else 0

/-- Embedding of the closure produced by
`edit._stemmatological_costs_factory`: insertion, substitution, and one
(possibly zone-discounted) deletion candidate per block length
`n ∈ range(1, min(max_del_len, i))` (note the source's `min(max_del_len, i)`,
not `min(max_del_len + 1, i)` as in the bulk-delete variant). -/

def _stemmatological_costs (max_del_len : ℕ) (frag_start frag_end : ℚ)
    (x y : List α) (d : ℕ → ℕ → ℚ) (i j : ℕ) : List ℚ :=
  let substitution_cost : ℚ :=
    if x.getD (i - 1) default = y.getD (j - 1) default then 0 else 1
  [d i (j - 1) + 1, d (i - 1) (j - 1) + substitution_cost] ++
    (List.range' 1 (min max_del_len i - 1)).map
      (fun n =>
        d (i - n) j + (if stemZone x.length frag_start frag_end i then 1 / 2 else 1))

/-- Embedding of `edit.levenshtein_dist`; with `normal=True` the source
divides by `max(len(seq_x), len(seq_y))`, raising `ZeroDivisionError`
(modelled `none`) when both sequences are empty. -/

def levenshtein_dist (x y : List α) (normal : Bool) : Option ℚ :=
  let dist := common._wagner_fischer x y (_levenshtein_costs x y) common.defaultSeed
  if normal then
    if max x.length y.length = 0 then none
    else some (dist / ((max x.length y.length : ℕ) : ℚ))
  else some dist

/-- Embedding of `edit.levdamerau_dist` (same normalization as
`levenshtein_dist`). -/

def levdamerau_dist (x y : List α) (normal : Bool) : Option ℚ :=
  let dist := common._wagner_fischer x y (_levdamerau_costs x y) common.defaultSeed
  if normal then
    if max x.length y.length = 0 then none
    else some (dist / ((max x.length y.length : ℕ) : ℚ))
  else some dist

/-- Embedding of `edit.bulk_delete_dist` (same normalization as
`levenshtein_dist`; `max_del_len` defaults to 5 in the source). -/

def bulk_delete_dist (x y : List α) (max_del_len : ℕ) (normal : Bool) :
    Option ℚ :=
  let dist := common._wagner_fischer x y (_bulk_delete_costs max_del_len x y)
    (_bulk_delete_initial_matrix x y max_del_len)
  if normal then
    if max x.length y.length = 0 then none
    else some (dist / ((max x.length y.length : ℕ) : ℚ))
  else some dist

/-- Embedding of `edit.stemmatological_simil` (defaults in the source:
`frag_start = frag_end = 10.0`, `max_del_len = 5`). -/

def stemmatological_simil (x y : List α) (frag_start frag_end : ℚ)
    (max_del_len : ℕ) (normal : Bool) : Option ℚ :=
  let dist := common._wagner_fischer x y
    (_stemmatological_costs max_del_len frag_start frag_end x y)
    (_stemmatological_initial_matrix x y max_del_len frag_start frag_end)
  if normal then
    if max x.length y.length = 0 then none
    else some (dist / ((max x.length y.length : ℕ) : ℚ))
  else some dist

/-- The raw (non-normalized) fragile-ends similarity, i.e. the
`_wagner_fischer` call inside `edit.fragile_ends_simil`. -/

def fragile_ends_raw (x y : List α) : ℚ :=
  common._wagner_fischer x y (_fragile_ends_costs x y)
    (_fragile_ends_initial_matrix x y)

/-- Embedding of `edit.fragile_ends_simil`; with `normal=True` the source
divides by `max([similarity, f(x+y, x), f(x+y, y)])` (the two recursive
calls use `normal=False`, hence `fragile_ends_raw`), raising
`ZeroDivisionError` (modelled `none`) when that maximum is zero. -/

def fragile_ends_simil (x y : List α) (normal : Bool) : Option ℚ :=
  let similarity := fragile_ends_raw x y
  if normal then
    let den := max similarity
      (max (fragile_ends_raw (x ++ y) x) (fragile_ends_raw (x ++ y) y))
    if den = 0 then none else some (similarity / den)
  else some similarity

end edit

/-! Model of the standard library `difflib.SequenceMatcher` block
matching consumed by the fast Birnbaum method.  `difflib` is an external
collaborator of the repository (Python standard library); we model its
documented semantics: `find_longest_match` returns, among all maximal
matching blocks of `a[alo:ahi]` / `b[blo:bhi]`, the one that starts
earliest in `a` and, among those, earliest in `b`; `get_matching_blocks`
recursively splits around the longest match, sorts the collected blocks
(our in-order recursion already produces them sorted) and merges
adjacent blocks.  Junk handling is omitted: no `isjunk` is passed by the
library and `autojunk` only affects sequences of length ≥ 200, which
never occur in the concrete evaluations below and does not affect the
interval bounds used by the general theorems.  The trailing dummy block
`(len(a), len(b), 0)` is dropped by every call site in the library
(`[:-1]`), so it is omitted here. -/

namespace difflib

variable {α : Type} [DecidableEq α]

/-- Length of the common prefix of two lists. -/

def cpl : List α → List α → ℕ
  | a :: as, b :: bs => if a = b then cpl as bs + 1 else 0
  | _, _ => 0

/-- Length of the longest match of `a` and `b` starting at `(i, j)` and
staying inside `a[.. ahi]`, `b[.. bhi]`. -/

def matchLen (a b : List α) (ahi bhi i j : ℕ) : ℕ :=
  cpl ((a.drop i).take (ahi - i)) ((b.drop j).take (bhi - j))

/-- Model of `SequenceMatcher.find_longest_match(alo, ahi, blo, bhi)`
(no junk): the triple `(i, j, k)` with maximal `k`, ties broken by
smallest `i`, then smallest `j`.  The fold scans candidates in
lexicographic `(i, j)` order and only replaces the current best on a
strictly longer match, which realizes exactly that tie-breaking. -/

def findLongestMatch (a b : List α) (alo ahi blo bhi : ℕ) : ℕ × ℕ × ℕ :=
  ((List.range' alo (ahi - alo)).flatMap
      (fun i => (List.range' blo (bhi - blo)).map (fun j => (i, j)))).foldl
    (fun best p =>
      let k := matchLen a b ahi bhi p.1 p.2
      if best.2.2 < k then (p.1, p.2, k) else best)
    (alo, blo, 0)

/-- The recursive splitting of `get_matching_blocks` (the source uses an
explicit queue and then sorts; splitting left/self/right in order yields
the same sorted list).  The first argument is recursion fuel: every
recursive call strictly shrinks `(ahi - alo) + (bhi - blo)` (the matched
block, of size ≥ 1, is removed), so `len(a) + len(b) + 1` dominates the
recursion depth. -/

def matchingBlocksAux (a b : List α) : ℕ → ℕ → ℕ → ℕ → ℕ → List (ℕ × ℕ × ℕ)
  | 0, _, _, _, _ => []
  | fuel + 1, alo, ahi, blo, bhi =>
    if (findLongestMatch a b alo ahi blo bhi).2.2 = 0 then []
    else
      matchingBlocksAux a b fuel alo (findLongestMatch a b alo ahi blo bhi).1
          blo (findLongestMatch a b alo ahi blo bhi).2.1 ++
        [findLongestMatch a b alo ahi blo bhi] ++
        matchingBlocksAux a b fuel
          ((findLongestMatch a b alo ahi blo bhi).1 +
            (findLongestMatch a b alo ahi blo bhi).2.2) ahi
          ((findLongestMatch a b alo ahi blo bhi).2.1 +
            (findLongestMatch a b alo ahi blo bhi).2.2) bhi

/-- The adjacent-block merging loop at the end of `get_matching_blocks`:
second components of adjacent triples are summed, zero-size groups are
dropped. -/

def mergeAdjacentGo : ℕ × ℕ × ℕ → List (ℕ × ℕ × ℕ) → List (ℕ × ℕ × ℕ)
  | cur, [] => if cur.2.2 = 0 then [] else [cur]
  | cur, b :: rest =>
    if cur.1 + cur.2.2 = b.1 ∧ cur.2.1 + cur.2.2 = b.2.1 then
      mergeAdjacentGo (cur.1, cur.2.1, cur.2.2 + b.2.2) rest
    else (if cur.2.2 = 0 then [] else [cur]) ++ mergeAdjacentGo b rest

/-- Model of `SequenceMatcher(None, a, b).get_matching_blocks()[:-1]`. -/

def get_matching_blocks (a b : List α) : List (ℕ × ℕ × ℕ) :=
  mergeAdjacentGo (0, 0, 0)
    (matchingBlocksAux a b (a.length + b.length + 1) 0 a.length 0 b.length)

/-- Total size of a block list. -/

def sumSizes (l : List (ℕ × ℕ × ℕ)) : ℕ := (l.map (fun r => r.2.2)).sum

/-- A block triple that stays inside the search window. -/

def InWindow (alo ahi blo bhi : ℕ) (r : ℕ × ℕ × ℕ) : Prop :=
  alo ≤ r.1 ∧ r.1 + r.2.2 ≤ ahi ∧ blo ≤ r.2.1 ∧ r.2.1 + r.2.2 ≤ bhi

end difflib

namespace similarity

variable {α : Type} [DecidableEq α] [Inhabited α]

/-- Embedding of `common._nwise(I, n)`: all windows of length `n`. -/

def _nwise (I : List α) (n : ℕ) : List (List α) :=
  (List.range (I.length + 1 - n)).map (fun i => (I.drop i).take n)

/-- Embedding of `common._indices(L, element)`: all indices `idx` of
`enumerate(L)` whose value equals `element`. -/

def _indices (L : List α) (element : α) : List ℕ :=
  (List.range L.length).filter (fun idx => decide (L.getD idx default = element))

/-- Embedding of `similarity.birnbaum_simil` (the exhaustive method):
after swapping so that `seq_x` is the longer sequence, for every window
length from `len(seq_y)` down to 1 and every window of `seq_y` of that
length, count one for every occurrence of the window in `seq_x`
(located by scanning the indices of the window's first element). -/

def birnbaum_simil (seq_x seq_y : List α) : ℕ :=
  let sx := if seq_x.length < seq_y.length then seq_y else seq_x
  let sy := if seq_x.length < seq_y.length then seq_x else seq_y
  ((List.range sy.length).map (fun t =>
    let subseq_len := sy.length - t
    ((_nwise sy subseq_len).map (fun w =>
      ((_indices sx (w.getD 0 default)).filter
        (fun i => decide ((sx.drop i).take subseq_len = w))).length)).sum)).sum

/-- Embedding of `similarity.fast_birnbaum_simil` (the fast method):
identical sequences short-circuit to the triangular number of the
length; otherwise sum `v * (v + 1) // 2` over the sizes of the
`difflib` matching blocks of the longer/shorter pair. -/

def fast_birnbaum_simil (seq_x seq_y : List α) : ℕ :=
  if seq_x = seq_y then seq_x.length * (seq_x.length + 1) / 2
  else
    let sx := if seq_x.length < seq_y.length then seq_y else seq_x
    let sy := if seq_x.length < seq_y.length then seq_x else seq_y
    ((difflib.get_matching_blocks sx sy).map (fun m => m.2.2 * (m.2.2 + 1) / 2)).sum

end similarity

namespace edit

variable {α : Type} [DecidableEq α] [Inhabited α]

/-- Embedding of `edit.birnbaum_simil` (the `difflib`-based fast method,
despite living in `edit.py` under the plain name): identical sequences
short-circuit to the raw triangular number `length * (length + 1) // 2`
BEFORE the `normal` flag is consulted; otherwise the block-size
triangular weights are summed and, with `normal`, divided by
`max(birnbaum_simil(sx, sx), birnbaum_simil(sy, sy))` — both recursive
calls hit the identity shortcut, i.e. they are the triangular numbers
of the two lengths, inlined here. -/

def birnbaum_simil (seq_x seq_y : List α) (normal : Bool) : ℚ :=
  if seq_x = seq_y then (tri seq_x.length : ℕ)
  else
    let sx := if seq_x.length < seq_y.length then seq_y else seq_x
    let sy := if seq_x.length < seq_y.length then seq_x else seq_y
    let similarity : ℕ := ((difflib.get_matching_blocks sx sy).map (fun m => tri m.2.2)).sum
    if normal then (similarity : ℚ) / ((max (tri sx.length) (tri sy.length) : ℕ) : ℚ)
    else (similarity : ℚ)

/-- Embedding of `edit.birnbaum_dist`: swap so `seq_x` is the longer,
then `max(0, 1 - simil(x, y) / simil(y, y))`; the division raises
`ZeroDivisionError` (modelled `none`) when the shorter sequence is
empty (`simil(y, y) = 0`). -/

def birnbaum_dist (seq_x seq_y : List α) (normal : Bool) : Option ℚ :=
  let sx := if seq_x.length < seq_y.length then seq_y else seq_x
  let sy := if seq_x.length < seq_y.length then seq_x else seq_y
  if birnbaum_simil sy sy false = 0 then none
  else some (max 0 (1 - birnbaum_simil sx sy false / birnbaum_simil sy sy false))

/-- Embedding of `edit.fast_birnbaum_dist`: like `birnbaum_dist` but with
the denominator written directly as `(len(seq_y) * (len(seq_y) + 1)) / 2`
and without the clamp to 0. -/

def fast_birnbaum_dist (seq_x seq_y : List α) (normal : Bool) : Option ℚ :=
  let sx := if seq_x.length < seq_y.length then seq_y else seq_x
  let sy := if seq_x.length < seq_y.length then seq_x else seq_y
  let denom : ℚ := ((sy.length * (sy.length + 1) : ℕ) : ℚ) / 2
  if denom = 0 then none
  else some (1 - birnbaum_simil sx sy false / denom)

/-- The scan of one `F_y` fragment list for a pattern inside `_mmcwpa`:
first pair `(idx_y, j)` with `sequence_find(seq_y[idx_y], pattern) = j`. -/

def findInFy (pattern : List α) (fy : List (List α)) : Option (ℕ × ℕ) :=
  (List.range fy.length).findSome? (fun idx =>
    (common.sequence_find (fy.getD idx []) pattern).map (fun j => (idx, j)))

/-- The pattern search of `_mmcwpa` restricted to ONE fragment `sf_x` of
`F_x`: window lengths descending from `len(sf_x)` to 1, start offsets
ascending, each window looked up in `F_y`; returns the first hit
`(length, i, idx_y, j)`. -/

def findPattern (sf_x : List α) (fy : List (List α)) : Option (ℕ × ℕ × ℕ × ℕ) :=
  (List.range sf_x.length).findSome? (fun t =>
    let length := sf_x.length - t
    (List.range (sf_x.length - length + 1)).findSome? (fun i =>
      (findInFy ((sf_x.drop i).take length) fy).map (fun p => (length, i, p.1, p.2))))

/-- Embedding of `edit._mmcwpa`, as written: the `return` statement of the
source sits INSIDE the `for idx_x, sf_x in enumerate(seq_x)` loop, so the
function always returns at the end of the first iteration — only the
FIRST fragment of `F_x` is ever searched, and when that fragment has no
match the untouched initial values `new_f_x = new_f_y = []` are
returned even if later fragments of `F_x` do occur in `F_y` (contrast
with the older implementation in `seqsim/mmcwpa.py`, whose equivalent
return sits inside the innermost match branch with a fallback after the
loops).  On a match the two matched fragments are split around the
window, empty fragments are dropped, and `(2 * length) ** 2` is added
to the SSNC accumulator. -/

def _mmcwpa (seq_x seq_y : List (List α)) (ssnc : ℚ) :
    List (List α) × List (List α) × ℚ :=
  match seq_x with
  | [] => ([], [], ssnc)
  | sf_x :: rest =>
    match findPattern sf_x seq_y with
    | none => ([], [], ssnc)
    | some (length, i, idx_y, j) =>
      let sf_y := seq_y.getD idx_y []
      (([sf_x.take i, sf_x.drop (i + length)] ++ rest).filter (fun sf => ¬sf.isEmpty),
        ((seq_y.take idx_y ++ [sf_y.take j, sf_y.drop (j + length)] ++
          seq_y.drop (idx_y + 1)).filter (fun sf => ¬sf.isEmpty)),
        ssnc + (((2 * length) ^ 2 : ℕ) : ℚ))

/-- Total element count of a fragment list. -/

def totalLen (l : List (List α)) : ℕ := (l.map List.length).sum

/-- The `while f_x and f_y` loop of `edit.mmcwpa_dist`.  The first
argument is recursion fuel: every round either returns `f_x = []`
(ending the loop) or removes a matched window of length ≥ 1 from the
first fragment of `F_x`, so `totalLen f_x + 1` bounds the number of
rounds; `mmcwpaLoopAux_congr` below proves the value is the same for
any sufficient fuel. -/

def mmcwpaLoopAux : ℕ → List (List α) → List (List α) → ℚ → ℚ
  | 0, _, _, ssnc => ssnc
  | fuel + 1, f_x, f_y, ssnc =>
    if f_x = [] ∨ f_y = [] then ssnc
    else
      mmcwpaLoopAux fuel (_mmcwpa f_x f_y ssnc).1 (_mmcwpa f_x f_y ssnc).2.1
        (_mmcwpa f_x f_y ssnc).2.2

/-- The SSNC value accumulated by the loop of `edit.mmcwpa_dist` on the
initial fragment lists `[seq_x]`, `[seq_y]`. -/

def mmcwpaSsnc (seq_x seq_y : List α) : ℚ :=
  mmcwpaLoopAux (seq_x.length + 1) [seq_x] [seq_y] 0

/-- Embedding of `edit.mmcwpa_dist`:
`1 - (ssnc / (len_a + len_b) ** 2) ** 0.5`, raising `ZeroDivisionError`
(modelled `none`) when both sequences are empty; `normal` is a dummy
parameter (it only triggers a log message in the source). -/

noncomputable def mmcwpa_dist (seq_x seq_y : List α) (normal : Bool) :
    Option ℝ :=
  if seq_x.length + seq_y.length = 0 then none
  else
    some (1 - Real.sqrt ((mmcwpaSsnc seq_x seq_y : ℝ) /
      (((seq_x.length + seq_y.length : ℕ) : ℝ) ^ 2)))

end edit

namespace common

/-- The alphabet `string.printable` used by `common.equivalent_string`
(100 characters: digits, lowercase, uppercase, punctuation,
whitespace), built from the ASCII codepoints. -/

def printable : List Char :=
  (List.range' 48 10 ++ List.range' 97 26 ++ List.range' 65 26 ++
    List.range' 33 15 ++ List.range' 58 7 ++ List.range' 91 6 ++
    List.range' 123 4 ++ [32, 9, 10, 13, 11, 12]).map Char.ofNat

/-- Embedding of the generic projection path of `common.equivalent_string`
(reached whenever the two inputs are NOT both Python strings): collect
the distinct elements of `seq_x + seq_y`, sort them (the source sorts by
`str(e)`; we model the chosen order with a linear order on the element
type — the claims below are independent of it), map each element to the
printable character at its position, and raise `ValueError` (modelled
`none`) when there are more than `len(string.printable) = 100` distinct
elements. -/

def equivalent_string {α : Type} [DecidableEq α] [LinearOrder α]
    (seq_x seq_y : List α) : Option (List Char × List Char) :=
  let elements := ((seq_x ++ seq_y).dedup).insertionSort (· ≤ ·)
  if elements.length ≤ printable.length then
    some (seq_x.map (fun e => printable.getD (elements.indexOf e) default),
      seq_y.map (fun e => printable.getD (elements.indexOf e) default))
  else none

/-- Embedding of the first branch of `common.equivalent_string`: when
BOTH inputs are Python strings (`isinstance(seq_x, str) and
isinstance(seq_y, str)`), they are returned unchanged — no distinct
symbol count is performed on this path. -/

def equivalent_string_strs (seq_x seq_y : List Char) :
    Option (List Char × List Char) :=
  some (seq_x, seq_y)

/-- Lexicographic comparison of two sequences, modelling Python's
comparison of same-type sequences (used as the second sort-key
component of `collect_subseqs`). -/

def lexLe {α : Type} [LinearOrder α] : List α → List α → Bool
  | [], _ => true
  | _ :: _, [] => false
  | a :: as, b :: bs => if a < b then true else if b < a then false else lexLe as bs

/-- The `while idx < length` loop body of `common.collect_subseqs`:
collect `sequence[idx:length]` together with its proper prefixes and
suffixes, then recurse with `idx + 1`, `length - 1`. -/

def collectGo {α : Type} (s : List α) (idx length : ℕ) : List (List α) :=
  if idx < length then
    ((s.take length).drop idx ::
      (List.range' 1 ((s.take length).drop idx).length.pred).flatMap
        (fun j => [((s.take length).drop idx).take j, ((s.take length).drop idx).drop j])) ++
      collectGo s (idx + 1) (length - 1)
  else []
termination_by length - idx
decreasing_by omega

/-- Embedding of `common.collect_subseqs`: every contiguous subsequence
reachable by the source's prefix/suffix sweep (with duplicates), sorted
by `(len(e), e)` when requested (the source's `TypeError` fallback for
mixed element types cannot arise in a homogeneous `List α`). -/

def collect_subseqs {α : Type} [LinearOrder α] (sequence : List α)
    (sort : Bool) : List (List α) :=
  let ret := collectGo sequence 0 sequence.length
  if sort then
    ret.insertionSort (fun u v =>
      (if u.length = v.length then lexLe u v else decide (u.length < v.length)) = true)
  else ret

end common

namespace token

variable {α : Type} [DecidableEq α]

/-- Embedding of `token.jaccard_dist`:
`1 - |set(x) ∩ set(y)| / (len(x) + len(y) - |set(x) ∩ set(y)|)`, raising
`ZeroDivisionError` (modelled `none`) when the denominator is zero
(both sequences empty); `normal` is a dummy parameter. -/

def jaccard_dist (seq_x seq_y : List α) (normal : Bool) : Option ℚ :=
  let intersection := (seq_x.toFinset ∩ seq_y.toFinset).card
  let union := seq_x.length + seq_y.length - intersection
  if union = 0 then none
  else some (1 - (intersection : ℚ) / (union : ℚ))

/-- The per-length Jaccard score of `token.subseq_jaccard_dist` for
window length `L`: `(|set(l1) ∩ set(l2)| / (len(l1) + len(l2) - inter)) * L`
over the collected subsequences of each sequence filtered to length `L`. -/

def subseqScore [LinearOrder α] (subseqs1 subseqs2 : List (List α)) (L : ℕ) : ℚ :=
  let l1 := subseqs1.filter (fun ss => ss.length = L)
  let l2 := subseqs2.filter (fun ss => ss.length = L)
  let inter := (l1.toFinset ∩ l2.toFinset).card
  ((inter : ℚ) / ((l1.length + l2.length - inter : ℕ) : ℚ)) * L

/-- The per-length denominator of `token.subseq_jaccard_dist` (a zero
value makes the source raise `ZeroDivisionError`). -/

def subseqUnion [LinearOrder α] (subseqs1 subseqs2 : List (List α)) (L : ℕ) : ℕ :=
  let l1 := subseqs1.filter (fun ss => ss.length = L)
  let l2 := subseqs2.filter (fun ss => ss.length = L)
  l1.length + l2.length - (l1.toFinset ∩ l2.toFinset).card

/-- Embedding of `token.subseq_jaccard_dist`:
`(1 - sum(scores) / (max_length * (max_length + 1) / 2)) ** max_length`
with one score per window length from `max_length` down to 1; `none`
models the `ZeroDivisionError` raised when both sequences are empty
(`0 / 0.0` in `sum / den`) or some per-length union is zero (the
latter is proved unreachable in `subseqUnion_pos` below); `normal` is
a dummy parameter. -/

def subseq_jaccard_dist [LinearOrder α] (seq_x seq_y : List α)
    (normal : Bool) : Option ℚ :=
  let subseqs1 := common.collect_subseqs seq_x true
  let subseqs2 := common.collect_subseqs seq_y true
  let max_length := max seq_x.length seq_y.length
  let Ls := (List.range max_length).map (fun t => max_length - t)
  if max_length = 0 ∨ Ls.any (fun L => subseqUnion subseqs1 subseqs2 L = 0) then
    none
  else
    some ((1 - (Ls.map (subseqScore subseqs1 subseqs2)).sum /
      (((max_length * (max_length + 1) : ℕ) : ℚ) / 2)) ^ max_length)

end token

/-- Collect a list of fallible results, propagating the first raised
exception (the list comprehension `dists = [...]` of `seqsim.distance`
evaluates every pairwise call; any exception propagates). -/

def optionList : List (Option ℚ) → Option (List ℚ)
  | [] => some []
  | none :: _ => none
  | some v :: rest =>
    match optionList rest with
    | none => none
    | some l => some (v :: l)

/-- Embedding of `itertools.combinations(seqs, 2)` as consumed by
`seqsim.distance`: all index-ordered pairs. -/

def combinations2 {β : Type} : List β → List (β × β)
  | [] => []
  | a :: rest => rest.map (fun b => (a, b)) ++ combinations2 rest

/-- Embedding of the dispatch function `seqsim.distance`, parametrized by
the pairwise method `f` (an entry of the `METHODS` table): fewer than
two sequences raise `ValueError` (modelled `none`); exactly two
sequences are compared directly; otherwise all pairwise combinations
are computed and their SUM IS DIVIDED BY `len(seqs)` (the number of
sequences, not the number of pairs), exactly as the source line
`dist = sum(dists) / len(seqs)`. -/

def distance {β : Type} (f : List β → List β → Bool → Option ℚ)
    (seqs : List (List β)) (normal : Bool) : Option ℚ :=
  if seqs.length < 2 then none
  else if seqs.length = 2 then f (seqs.getD 0 []) (seqs.getD 1 []) normal
  else
    match optionList ((combinations2 seqs).map (fun p => f p.1 p.2 normal)) with
    | none => none
    | some dists => some (dists.sum / (seqs.length : ℚ))

namespace common

/-- A pair of (string) inputs with 101 distinct symbols, for the
`equivalent_string` domain-limit claim. -/

def hundredOneSymbols : List Char := (List.range' 256 101).map Char.ofNat

end common

namespace common

end common

end Seqsim

/-! All definitions above are translations of the source; the
development below proves the stated properties about them. -/

namespace Seqsim

theorem two_tri (n : ℕ) : 2 * tri n = n * (n + 1) := by
  have h : 2 ∣ n * (n + 1) := (Nat.even_mul_succ_self n).two_dvd
  exact Nat.mul_div_cancel' h

theorem tri_superadd (a b : ℕ) : tri a + tri b ≤ tri (a + b) := by
  have h : 2 * (tri a + tri b) ≤ 2 * tri (a + b) := by
    rw [Nat.mul_add, two_tri, two_tri, two_tri]
    nlinarith
  omega

theorem tri_mono {a b : ℕ} (h : a ≤ b) : tri a ≤ tri b := by
  have h2 : a * (a + 1) ≤ b * (b + 1) := Nat.mul_le_mul h (by omega)
  exact Nat.div_le_div_right h2

theorem foldl_min_le_init (t : List ℚ) (b : ℚ) : t.foldl min b ≤ b := by
  induction t generalizing b with
  | nil => exact le_refl b
  | cons c t ih => exact le_trans (ih (min b c)) (min_le_left b c)

theorem foldl_min_le_mem {t : List ℚ} {a : ℚ} (h : a ∈ t) (b : ℚ) :
    t.foldl min b ≤ a := by
  induction t generalizing b with
  | nil => cases h
  | cons c t ih =>
    rw [List.mem_cons] at h
    rcases h with h | h
    · subst h
      exact le_trans (foldl_min_le_init t (min b a)) (min_le_right b a)
    · exact ih h (min b c)

theorem minList_le {l : List ℚ} {a : ℚ} (h : a ∈ l) : minList l ≤ a := by
  match l with
  | b :: t =>
    show t.foldl min b ≤ a
    rw [List.mem_cons] at h
    rcases h with h | h
    · subst h; exact foldl_min_le_init t a
    · exact foldl_min_le_mem h b

theorem le_minList {l : List ℚ} {a : ℚ} (hne : l ≠ []) (h : ∀ x ∈ l, a ≤ x) :
    a ≤ minList l := by
  match l with
  | b :: t =>
    show a ≤ t.foldl min b
    clear hne
    induction t generalizing b with
    | nil => exact h b (List.mem_cons_self b [])
    | cons c t ih =>
      refine ih (min b c) ?_
      intro x hx
      rw [List.mem_cons] at hx
      rcases hx with hx | hx
      · subst hx
        exact le_min (h b (by simp)) (h c (by simp))
      · exact h x (by simp [hx])

namespace common

variable {α : Type}

theorem sequence_find_self [DecidableEq α] (x : List α) :
    sequence_find x x = some 0 := by
  unfold sequence_find
  simp [List.range_succ_eq_map, List.take_of_length_le]

theorem wfAux_boundary (seed : ℕ → ℕ → ℚ)
    (cands : (ℕ → ℕ → ℚ) → ℕ → ℕ → List ℚ) (fuel i j : ℕ)
    (h : i = 0 ∨ j = 0) : wfAux seed cands fuel i j = seed i j := by
  cases fuel with
  | zero => rfl
  | succ fuel => simp only [wfAux, if_pos h]

theorem wfAux_congr {seed : ℕ → ℕ → ℚ}
    {cands : (ℕ → ℕ → ℚ) → ℕ → ℕ → List ℚ} (hl : CandLocal cands) :
    ∀ (n f₁ f₂ i j : ℕ), i + j ≤ f₁ → i + j ≤ f₂ → i + j ≤ n →
      wfAux seed cands f₁ i j = wfAux seed cands f₂ i j := by
  intro n
  induction n with
  | zero =>
    intro f₁ f₂ i j _ _ hn
    have hi : i = 0 := by omega
    rw [wfAux_boundary seed cands f₁ i j (Or.inl hi),
      wfAux_boundary seed cands f₂ i j (Or.inl hi)]
  | succ n ih =>
    intro f₁ f₂ i j h₁ h₂ hn
    by_cases hb : i = 0 ∨ j = 0
    · rw [wfAux_boundary seed cands f₁ i j hb, wfAux_boundary seed cands f₂ i j hb]
    · push_neg at hb
      have hi : 1 ≤ i := by omega
      have hj : 1 ≤ j := by omega
      obtain ⟨g₁, rfl⟩ : ∃ g, f₁ = g + 1 := ⟨f₁ - 1, by omega⟩
      obtain ⟨g₂, rfl⟩ : ∃ g, f₂ = g + 1 := ⟨f₂ - 1, by omega⟩
      simp only [wfAux, if_neg (by omega : ¬(i = 0 ∨ j = 0))]
      refine congrArg minList (hl _ _ i j hi hj ?_)
      intro a b hab
      exact ih g₁ g₂ a b (by omega) (by omega) (by omega)

theorem _wagner_fischer_eq_wfM (x y : List α)
    (cands : (ℕ → ℕ → ℚ) → ℕ → ℕ → List ℚ) (seed : ℕ → ℕ → ℚ) :
    _wagner_fischer x y cands seed = wfM seed cands x.length y.length := rfl

theorem wfM_boundary (seed : ℕ → ℕ → ℚ)
    (cands : (ℕ → ℕ → ℚ) → ℕ → ℕ → List ℚ) {i j : ℕ} (h : i = 0 ∨ j = 0) :
    wfM seed cands i j = seed i j :=
  wfAux_boundary seed cands (i + j) i j h

theorem wfM_rec {seed : ℕ → ℕ → ℚ} {cands : (ℕ → ℕ → ℚ) → ℕ → ℕ → List ℚ}
    (hl : CandLocal cands) {i j : ℕ} (hi : 1 ≤ i) (hj : 1 ≤ j) :
    wfM seed cands i j = minList (cands (wfM seed cands) i j) := by
  unfold wfM
  obtain ⟨g, hg⟩ : ∃ g, i + j = g + 1 := ⟨i + j - 1, by omega⟩
  rw [hg]
  simp only [wfAux, if_neg (by omega : ¬(i = 0 ∨ j = 0))]
  refine congrArg minList (hl _ _ i j hi hj ?_)
  intro a b hab
  exact wfAux_congr hl (a + b) g (a + b) a b (by omega) le_rfl le_rfl

end common

namespace edit

variable {α : Type} [DecidableEq α] [Inhabited α]

theorem _levenshtein_costs_local (x y : List α) :
    common.CandLocal (_levenshtein_costs x y) := by
  intro d₁ d₂ i j hi hj h
  unfold _levenshtein_costs
  rw [h (i - 1) j (by omega), h i (j - 1) (by omega), h (i - 1) (j - 1) (by omega)]

theorem _levdamerau_costs_local (x y : List α) :
    common.CandLocal (_levdamerau_costs x y) := by
  intro d₁ d₂ i j hi hj h
  unfold _levdamerau_costs
  rw [h (i - 1) j (by omega), h i (j - 1) (by omega), h (i - 1) (j - 1) (by omega)]
  by_cases hc : 1 < i ∧ 1 < j ∧ x.getD (i - 1) default = y.getD (j - 2) default ∧
      x.getD (i - 2) default = y.getD (j - 1) default
  · rw [if_pos hc, if_pos hc, h (i - 2) (j - 2) (by omega)]
  · rw [if_neg hc, if_neg hc]

theorem _fragile_ends_costs_local (x y : List α) :
    common.CandLocal (_fragile_ends_costs x y) := by
  intro d₁ d₂ i j hi hj h
  unfold _fragile_ends_costs
  rw [h i (j - 1) (by omega), h (i - 1) (j - 1) (by omega), h (i - 1) j (by omega)]

theorem _bulk_delete_costs_local (max_del_len : ℕ) (x y : List α) :
    common.CandLocal (_bulk_delete_costs max_del_len x y) := by
  intro d₁ d₂ i j hi hj h
  unfold _bulk_delete_costs
  rw [h i (j - 1) (by omega), h (i - 1) (j - 1) (by omega)]
  refine congrArg _ (congrArg _ (List.map_congr_left ?_))
  intro n hn
  rw [List.mem_range'] at hn
  rw [h (i - n) j (by omega)]

theorem _stemmatological_costs_local (max_del_len : ℕ) (frag_start frag_end : ℚ)
    (x y : List α) :
    common.CandLocal (_stemmatological_costs max_del_len frag_start frag_end x y) := by
  intro d₁ d₂ i j hi hj h
  unfold _stemmatological_costs
  rw [h i (j - 1) (by omega), h (i - 1) (j - 1) (by omega)]
  refine congrArg _ (congrArg _ (List.map_congr_left ?_))
  intro n hn
  rw [List.mem_range'] at hn
  rw [h (i - n) j (by omega)]

end edit

namespace difflib

variable {α : Type} [DecidableEq α]

theorem cpl_le_left (u v : List α) : cpl u v ≤ u.length := by
  induction u generalizing v with
  | nil => simp [cpl]
  | cons a as ih =>
    cases v with
    | nil => simp [cpl]
    | cons b bs =>
      by_cases h : a = b
      · simpa [cpl, h] using ih bs
      · simp [cpl, h]

theorem cpl_le_right (u v : List α) : cpl u v ≤ v.length := by
  induction u generalizing v with
  | nil => simp [cpl]
  | cons a as ih =>
    cases v with
    | nil => simp [cpl]
    | cons b bs =>
      by_cases h : a = b
      · simpa [cpl, h] using ih bs
      · simp [cpl, h]

theorem matchLen_le_a (a b : List α) (ahi bhi i j : ℕ) :
    matchLen a b ahi bhi i j ≤ ahi - i :=
  le_trans (cpl_le_left _ _) (le_trans (List.length_take_le _ _) le_rfl)

theorem matchLen_le_b (a b : List α) (ahi bhi i j : ℕ) :
    matchLen a b ahi bhi i j ≤ bhi - j :=
  le_trans (cpl_le_right _ _) (le_trans (List.length_take_le _ _) le_rfl)

theorem findLongestMatch_bounds (a b : List α) (alo ahi blo bhi : ℕ) :
    (findLongestMatch a b alo ahi blo bhi).2.2 = 0 ∨
      InWindow alo ahi blo bhi (findLongestMatch a b alo ahi blo bhi) := by
  have H : ∀ (l : List (ℕ × ℕ)) (init : ℕ × ℕ × ℕ),
      (∀ p ∈ l, alo ≤ p.1 ∧ p.1 < ahi ∧ blo ≤ p.2 ∧ p.2 < bhi) →
      (init.2.2 = 0 ∨ InWindow alo ahi blo bhi init) →
      ((l.foldl (fun best p =>
          let k := matchLen a b ahi bhi p.1 p.2
          if best.2.2 < k then (p.1, p.2, k) else best) init).2.2 = 0 ∨
        InWindow alo ahi blo bhi (l.foldl (fun best p =>
          let k := matchLen a b ahi bhi p.1 p.2
          if best.2.2 < k then (p.1, p.2, k) else best) init)) := by
    intro l
    induction l with
    | nil => intro init _ h; exact h
    | cons p rest ih =>
      intro init hmem h
      rw [List.foldl_cons]
      refine ih _ (fun q hq => hmem q (List.mem_cons_of_mem p hq)) ?_
      simp only
      by_cases hlt : init.2.2 < matchLen a b ahi bhi p.1 p.2
      · rw [if_pos hlt]
        obtain ⟨h₁, h₂, h₃, h₄⟩ := hmem p (List.mem_cons_self p rest)
        have ha := matchLen_le_a a b ahi bhi p.1 p.2
        have hb := matchLen_le_b a b ahi bhi p.1 p.2
        refine Or.inr ?_
        unfold InWindow
        dsimp only
        omega
      · rw [if_neg hlt]
        exact h
  refine H _ _ ?_ (Or.inl rfl)
  intro p hp
  rcases List.mem_flatMap.mp hp with ⟨i, hi, hj⟩
  rcases List.mem_map.mp hj with ⟨j, hjm, rfl⟩
  rw [List.mem_range'] at hi hjm
  exact ⟨by omega, by omega, by omega, by omega⟩

theorem sumSizes_append (l₁ l₂ : List (ℕ × ℕ × ℕ)) :
    sumSizes (l₁ ++ l₂) = sumSizes l₁ + sumSizes l₂ := by
  simp [sumSizes]

theorem sumSizes_matchingBlocksAux_le (a b : List α) :
    ∀ (fuel alo ahi blo bhi : ℕ),
      sumSizes (matchingBlocksAux a b fuel alo ahi blo bhi) ≤
        min (ahi - alo) (bhi - blo) := by
  intro fuel
  induction fuel with
  | zero => intro alo ahi blo bhi; simp [matchingBlocksAux, sumSizes]
  | succ fuel ih =>
    intro alo ahi blo bhi
    simp only [matchingBlocksAux]
    by_cases h0 : (findLongestMatch a b alo ahi blo bhi).2.2 = 0
    · rw [if_pos h0]; simp [sumSizes]
    · rw [if_neg h0]
      obtain ⟨hb₁, hb₂, hb₃, hb₄⟩ :=
        (findLongestMatch_bounds a b alo ahi blo bhi).resolve_left h0
      rw [sumSizes_append, sumSizes_append]
      have h₁ := ih alo (findLongestMatch a b alo ahi blo bhi).1
        blo (findLongestMatch a b alo ahi blo bhi).2.1
      have h₂ := ih
        ((findLongestMatch a b alo ahi blo bhi).1 +
          (findLongestMatch a b alo ahi blo bhi).2.2) ahi
        ((findLongestMatch a b alo ahi blo bhi).2.1 +
          (findLongestMatch a b alo ahi blo bhi).2.2) bhi
      have h₃ : sumSizes [findLongestMatch a b alo ahi blo bhi] =
          (findLongestMatch a b alo ahi blo bhi).2.2 := by simp [sumSizes]
      omega

theorem sumSizes_mergeAdjacentGo (cur : ℕ × ℕ × ℕ) (l : List (ℕ × ℕ × ℕ)) :
    sumSizes (mergeAdjacentGo cur l) = cur.2.2 + sumSizes l := by
  induction l generalizing cur with
  | nil =>
    by_cases h : cur.2.2 = 0 <;> simp [mergeAdjacentGo, sumSizes, h]
  | cons b rest ih =>
    simp only [mergeAdjacentGo]
    by_cases h : cur.1 + cur.2.2 = b.1 ∧ cur.2.1 + cur.2.2 = b.2.1
    · rw [if_pos h, ih]
      simp [sumSizes]
      omega
    · rw [if_neg h, sumSizes_append, ih]
      by_cases h0 : cur.2.2 = 0
      · simp [sumSizes, h0]
      · simp [sumSizes, h0]

theorem sumSizes_get_matching_blocks_le (a b : List α) :
    sumSizes (get_matching_blocks a b) ≤ min a.length b.length := by
  unfold get_matching_blocks
  rw [sumSizes_mergeAdjacentGo]
  simpa using sumSizes_matchingBlocksAux_le a b
    (a.length + b.length + 1) 0 a.length 0 b.length

end difflib

namespace similarity

variable {α : Type} [DecidableEq α] [Inhabited α]

end similarity

namespace edit

variable {α : Type} [DecidableEq α] [Inhabited α]

end edit

namespace common

end common

namespace token

variable {α : Type} [DecidableEq α]

end token

theorem find?_range_spec {p : ℕ → Bool} {n i : ℕ}
    (h : (List.range n).find? p = some i) :
    p i = true ∧ i < n ∧ ∀ j < i, p j = false := by
  rw [List.find?_eq_some] at h
  obtain ⟨hp, as, bs, heq, hprev⟩ := h
  have hlen : as.length < n := by
    have := congrArg List.length heq
    simp at this
    omega
  have hi : i = as.length := by
    have h1 : (List.range n)[as.length]? = some as.length :=
      List.getElem?_range hlen
    rw [heq, List.getElem?_append_right (le_refl as.length)] at h1
    simp at h1
    omega
  subst hi
  have has : as = List.range as.length := by
    have h2 : List.take as.length (List.range n) = as := by
      rw [heq, List.take_left]
    rw [List.take_range, Nat.min_eq_left (le_of_lt hlen)] at h2
    exact h2.symm
  refine ⟨hp, hlen, ?_⟩
  intro j hj
  have hmem : j ∈ as := by
    rw [has]
    exact List.mem_range.mpr hj
  have := hprev j hmem
  simpa using this

namespace common

/-- C10: `sequence_find(hay, needle)` returns `some i` only when the
slice `hay[i : i + len(needle)]` equals `needle` and `i` is the least
such index; it returns `none` exactly when `needle` occurs nowhere in
`hay`; and for an empty needle it returns index 0 for every hay. -/

theorem sequence_find_correct {α : Type} [DecidableEq α]
    (hay needle : List α) :
    (∀ i, sequence_find hay needle = some i →
      ((hay.drop i).take needle.length = needle ∧
        ∀ i' < i, (hay.drop i').take needle.length ≠ needle)) ∧
    (sequence_find hay needle = none ↔
      ¬∃ i, i + needle.length ≤ hay.length ∧
        (hay.drop i).take needle.length = needle) ∧
    (needle = [] → sequence_find hay needle = some 0) := by
  refine ⟨?_, ⟨?_, ?_⟩, ?_⟩
  · intro i h
    obtain ⟨hp, _, hmin⟩ := find?_range_spec h
    refine ⟨of_decide_eq_true hp, ?_⟩
    intro i' hi' hcontra
    have := hmin i' hi'
    rw [decide_eq_false_iff_not] at this
    exact this hcontra
  · intro h
    rw [sequence_find, List.find?_eq_none] at h
    rintro ⟨i, hle, heq⟩
    refine h i ?_ (decide_eq_true heq)
    rw [List.mem_range]
    omega
  · intro h
    rw [sequence_find, List.find?_eq_none]
    intro j hj
    rw [List.mem_range] at hj
    simp only [Bool.not_eq_true, decide_eq_false_iff_not]
    intro hP
    exact h ⟨j, by omega, hP⟩
  · intro h
    subst h
    rw [sequence_find]
    simp [List.range_succ_eq_map, List.find?]

/-- Witness for `sequence_find_correct`: the empty-needle case at a
concrete input. -/

theorem sequence_find_correct_witness :
    sequence_find ([0, 1] : List ℕ) [] = some 0 :=
  (sequence_find_correct [0, 1] []).2.2 rfl

theorem printable_length : printable.length = 100 := rfl

theorem printable_nodup : printable.Nodup := by decide

set_option maxRecDepth 4000 in

/-- C9 counterexample: when both inputs are Python strings, the source
returns them unchanged without counting distinct symbols, so a pair
using 101 distinct symbols does NOT raise — although the generic
projection path on the same data would. -/

theorem equivalent_string_no_raise_on_strs :
    equivalent_string_strs hundredOneSymbols [] = some (hundredOneSymbols, []) ∧
    (hundredOneSymbols ++ ([] : List Char)).dedup.length = 101 ∧
    equivalent_string hundredOneSymbols ([] : List Char) = none := by
  refine ⟨rfl, by decide, by decide⟩

/-- C9 amended: the generic projection path raises exactly when the pair
uses more than 100 distinct symbols, and otherwise returns a pair of
character strings, order-preserving, with one single character per
distinct token, injectively (pairs of Python strings bypass the
projection and are returned unchanged, see
`equivalent_string_no_raise_on_strs`). -/

theorem equivalent_string_spec {α : Type} [DecidableEq α] [LinearOrder α]
    (x y : List α) :
    (equivalent_string x y = none ↔ 100 < (x ++ y).dedup.length) ∧
    (∀ sx sy, equivalent_string x y = some (sx, sy) →
      sx.length = x.length ∧ sy.length = y.length ∧
      ∃ f : α → Char,
        (∀ a ∈ x ++ y, ∀ b ∈ x ++ y, f a = f b → a = b) ∧
        sx = x.map f ∧ sy = y.map f) := by
  have hlen : (((x ++ y).dedup).insertionSort (· ≤ ·)).length =
      (x ++ y).dedup.length := (List.perm_insertionSort _ _).length_eq
  constructor
  · constructor
    · intro h
      by_contra hle
      push_neg at hle
      rw [equivalent_string, if_pos (by rw [hlen, printable_length]; omega)] at h
      exact Option.noConfusion h
    · intro h
      rw [equivalent_string, if_neg (by rw [hlen, printable_length]; omega)]
  · intro sx sy h
    by_cases hc : (((x ++ y).dedup).insertionSort (· ≤ ·)).length ≤
        printable.length
    · rw [equivalent_string, if_pos hc] at h
      rw [Option.some.injEq, Prod.mk.injEq] at h
      obtain ⟨h1, h2⟩ := h
      refine ⟨by rw [← h1]; exact List.length_map .., by rw [← h2]; exact List.length_map .., ?_⟩
      refine ⟨fun e => printable.getD
        ((((x ++ y).dedup).insertionSort (· ≤ ·)).indexOf e) default,
        ?_, h1.symm, h2.symm⟩
      intro a ha b hb hfab
      have hmem : ∀ c ∈ x ++ y,
          c ∈ ((x ++ y).dedup).insertionSort (· ≤ ·) := by
        intro c hcm
        rw [(List.perm_insertionSort _ _).mem_iff, List.mem_dedup]
        exact hcm
      have hia : (((x ++ y).dedup).insertionSort (· ≤ ·)).indexOf a <
          printable.length :=
        lt_of_lt_of_le (List.indexOf_lt_length.mpr (hmem a ha)) (hlen ▸ hc)
      have hib : (((x ++ y).dedup).insertionSort (· ≤ ·)).indexOf b <
          printable.length :=
        lt_of_lt_of_le (List.indexOf_lt_length.mpr (hmem b hb)) (hlen ▸ hc)
      simp only at hfab
      rw [List.getD_eq_getElem printable default hia,
        List.getD_eq_getElem printable default hib,
        printable_nodup.getElem_inj_iff] at hfab
      exact (List.indexOf_inj (hmem a ha) (hmem b hb)).mp hfab
    · rw [equivalent_string, if_neg hc] at h
      exact Option.noConfusion h

/-- Witness for `equivalent_string_spec`: a concrete in-limit pair. -/

theorem equivalent_string_spec_witness :
    equivalent_string ([3, 5] : List ℕ) [5, 9] = none ↔
      100 < (([3, 5] : List ℕ) ++ [5, 9]).dedup.length :=
  (equivalent_string_spec [3, 5] [5, 9]).1

end common

/-- C1: for four single-element sequences at mutual Levenshtein distance 1
the dispatch function returns `6 / 4 = 3/2` — the sum of the 6 pairwise
distances divided by `len(seqs) = 4` — although the arithmetic mean over
the `C(4,2) = 6` unordered pairs is 1: `distance` divides by the number
of sequences, not the number of pairs (its docstring promises "the mean
value of all pairwise comparisons"; the two agree only for 3 sequences). -/

theorem distance_divides_by_seq_count :
    distance edit.levenshtein_dist ([[0], [1], [2], [3]] : List (List ℕ)) false =
      some (3 / 2) ∧
    (combinations2 ([[0], [1], [2], [3]] : List (List ℕ))).length = 6 ∧
    (∀ p ∈ combinations2 ([[0], [1], [2], [3]] : List (List ℕ)),
      edit.levenshtein_dist p.1 p.2 false = some 1) ∧
    (3 / 2 : ℚ) ≠ 1 := by
  refine ⟨?_, by decide, ?_, by norm_num⟩
  · norm_num [distance, combinations2, optionList, edit.levenshtein_dist,
      common._wagner_fischer, common.wfAux, edit._levenshtein_costs, minList,
      common.defaultSeed, min_def]
  · norm_num [combinations2, edit.levenshtein_dist, common._wagner_fischer,
      common.wfAux, edit._levenshtein_costs, minList, common.defaultSeed, min_def]

/-- C2: the mis-indented `return` in `edit._mmcwpa` ends every round after
the FIRST fragment of `F_x`: on `F_x = [[0], [1]]`, `F_y = [[1]]` the
round returns the empty fragment lists untouched (terminating the
`mmcwpa_dist` loop) even though the second fragment `[1]` of `F_x`
occurs in `F_y`; consequently on the full inputs `[0, 2, 1]` /
`[2, 3, 1]` the loop stops with SSNC 4 (only the window `[2]` was ever
matched) with unconsumed matchable elements on both sides. -/

theorem mmcwpa_round_skips_later_fragments :
    edit._mmcwpa ([[0], [1]] : List (List ℕ)) [[1]] 0 = ([], [], 0) ∧
    common.sequence_find ([1] : List ℕ) [1] = some 0 ∧
    edit.mmcwpaSsnc ([0, 2, 1] : List ℕ) [2, 3, 1] = 4 := by
  refine ⟨?_, by decide, ?_⟩
  · norm_num [edit._mmcwpa, edit.findPattern, edit.findInFy, common.sequence_find,
      List.findSome?, List.find?, List.range, List.range.loop]
  · norm_num [edit.mmcwpaSsnc, edit.mmcwpaLoopAux, edit._mmcwpa, edit.findPattern,
      edit.findInFy, common.sequence_find, List.findSome?, List.find?,
      List.range, List.range.loop, List.filter]

/-- C7: on two empty sequences, `jaccard_dist`, `levenshtein_dist` with
`normal=True`, and `mmcwpa_dist` all raise `ZeroDivisionError`
(modelled `none`) instead of returning the defined value the
specification prescribes. -/

theorem empty_inputs_divide_fault :
    token.jaccard_dist ([] : List ℕ) [] false = none ∧
    edit.levenshtein_dist ([] : List ℕ) [] true = none ∧
    edit.mmcwpa_dist ([] : List ℕ) [] false = none := by
  refine ⟨by decide, by decide, rfl⟩

set_option maxRecDepth 8000 in

/-- C4: on the pair `"kitten"` / `"sitting"` the exhaustive Birnbaum
similarity is 10 and the fast (block-matching) similarity is 7. -/

theorem birnbaum_kitten_sitting :
    similarity.birnbaum_simil "kitten".toList "sitting".toList = 10 ∧
    similarity.fast_birnbaum_simil "kitten".toList "sitting".toList = 7 := by
  refine ⟨by decide, by decide⟩

theorem findInFy_self {α : Type} [DecidableEq α] (x : List α) :
    edit.findInFy x [x] = some (0, 0) := by
  simp [edit.findInFy, List.findSome?, common.sequence_find_self, List.range_succ_eq_map]

theorem findPattern_self {α : Type} [DecidableEq α] (x : List α) (hx : x ≠ []) :
    edit.findPattern x [x] = some (x.length, 0, 0, 0) := by
  obtain ⟨m, hm⟩ : ∃ m, x.length = m + 1 :=
    ⟨x.length - 1, by cases x with | nil => exact absurd rfl hx | cons a t => simp⟩
  unfold edit.findPattern
  rw [hm, List.range_succ_eq_map, List.findSome?]
  dsimp only
  simp only [Nat.sub_zero, Nat.sub_self, Nat.zero_add]
  rw [show List.range 1 = [0] from rfl, List.findSome?]
  have h3 : (x.drop 0).take (m + 1) = x := by
    rw [List.drop_zero]
    exact List.take_of_length_le (le_of_eq hm)
  rw [h3, findInFy_self x]
  simp [hm]

theorem _mmcwpa_self {α : Type} [DecidableEq α] (x : List α) (hx : x ≠ []) :
    edit._mmcwpa [x] [x] 0 =
      ([], [], (((2 * x.length) ^ 2 : ℕ) : ℚ)) := by
  simp only [edit._mmcwpa, findPattern_self x hx]
  simp [List.drop_length, List.filter]

theorem mmcwpaSsnc_self {α : Type} [DecidableEq α] (x : List α) (hx : x ≠ []) :
    edit.mmcwpaSsnc x x = (((x.length + x.length) ^ 2 : ℕ) : ℚ) := by
  obtain ⟨m, hm⟩ : ∃ m, x.length = m + 1 :=
    ⟨x.length - 1, by cases x with | nil => exact absurd rfl hx | cons a t => simp⟩
  unfold edit.mmcwpaSsnc
  rw [hm]
  rw [edit.mmcwpaLoopAux]
  rw [if_neg (by simp)]
  rw [_mmcwpa_self x hx]
  rw [edit.mmcwpaLoopAux]
  rw [if_pos (Or.inl rfl)]
  rw [hm]
  norm_num
  ring

/-- C6: for every non-empty sequence `x`, the MMCWPA loop on `(x, x)`
matches the whole sequence in its first round, driving the SSNC
accumulator to exactly `(len_x + len_y)²`, and `mmcwpa_dist(x, x)`
returns exactly 0. -/

theorem mmcwpa_dist_self_eq_zero {α : Type} [DecidableEq α] (x : List α)
    (hx : x ≠ []) :
    edit.mmcwpaSsnc x x = (((x.length + x.length) ^ 2 : ℕ) : ℚ) ∧
    edit.mmcwpa_dist x x false = some 0 := by
  refine ⟨mmcwpaSsnc_self x hx, ?_⟩
  have hn : x.length ≠ 0 := by
    intro h
    exact hx (List.eq_nil_of_length_eq_zero h)
  unfold edit.mmcwpa_dist
  rw [if_neg (by omega)]
  rw [mmcwpaSsnc_self x hx]
  have hden : (((x.length + x.length : ℕ) : ℝ)) ^ 2 ≠ 0 := by
    have h0 : (x.length + x.length : ℕ) ≠ 0 := by omega
    have : ((x.length + x.length : ℕ) : ℝ) ≠ 0 := Nat.cast_ne_zero.mpr h0
    positivity
  rw [show ((((((x.length + x.length) ^ 2 : ℕ) : ℚ)) : ℝ)) =
      (((x.length + x.length : ℕ) : ℝ)) ^ 2 by push_cast; ring]
  rw [div_self hden, Real.sqrt_one, sub_self]

/-- Witness for `mmcwpa_dist_self_eq_zero` at `x = [0]`. -/

theorem mmcwpa_dist_self_eq_zero_witness :
    edit.mmcwpaSsnc ([0] : List ℕ) [0] = (((2 : ℕ) ^ 2 : ℕ) : ℚ) ∧
    edit.mmcwpa_dist ([0] : List ℕ) [0] false = some 0 :=
  mmcwpa_dist_self_eq_zero [0] (by decide)

/-- C5 counterexample: the exhaustive Birnbaum self-similarity of the
two-element sequence `[0, 0]` is 5, not `2 * (2 + 1) / 2 = 3`: with
duplicated elements every repeated window is counted at every matching
position, so the exhaustive self-score exceeds the triangular number. -/

theorem birnbaum_self_simil_duplicates :
    similarity.birnbaum_simil ([0, 0] : List ℕ) [0, 0] = 5 ∧
    (5 : ℕ) ≠ 2 * (2 + 1) / 2 := by
  refine ⟨by decide, by decide⟩

theorem tri_succ (n : ℕ) : tri (n + 1) = tri n + (n + 1) := by
  have h1 := two_tri n
  have h2 := two_tri (n + 1)
  have h3 : (n + 1) * (n + 1 + 1) = n * (n + 1) + 2 * (n + 1) := by ring
  omega

theorem sum_map_one {β : Type} {l : List β} {f : β → ℕ}
    (h : ∀ b ∈ l, f b = 1) : (l.map f).sum = l.length := by
  induction l with
  | nil => rfl
  | cons b t ih =>
    rw [List.map_cons, List.sum_cons, h b (List.mem_cons_self b t),
      ih (fun c hc => h c (List.mem_cons_of_mem b hc)), List.length_cons]
    omega

theorem sum_range_map_succ_eq_tri (n : ℕ) :
    ((List.range n).map (fun t => t + 1)).sum = tri n := by
  induction n with
  | zero => simp [tri]
  | succ n ih =>
    rw [List.range_succ, List.map_append, List.sum_append, ih, tri_succ]
    simp

theorem range_filter_eq_singleton {n i : ℕ} (h : i < n) :
    (List.range n).filter (fun k => decide (k = i)) = [i] := by
  induction n with
  | zero => omega
  | succ n ih =>
    rw [List.range_succ, List.filter_append]
    by_cases hi : i = n
    · subst hi
      have h0 : (List.range i).filter (fun k => decide (k = i)) = [] := by
        rw [List.filter_eq_nil_iff]
        intro a ha
        rw [List.mem_range] at ha
        simp only [decide_eq_true_eq]
        omega
      rw [h0]
      simp
    · have hi' : i < n := by omega
      rw [ih hi']
      have hne : ¬(n = i) := by omega
      simp [List.filter, hne]

theorem indices_self_nodup {α : Type} [DecidableEq α] [Inhabited α]
    {x : List α} (hnd : x.Nodup) {i : ℕ} (hi : i < x.length) :
    similarity._indices x (x.getD i default) = [i] := by
  unfold similarity._indices
  have hcongr : ∀ k ∈ List.range x.length,
      decide (x.getD k default = x.getD i default) = decide (k = i) := by
    intro k hk
    rw [List.mem_range] at hk
    refine decide_eq_decide.mpr ?_
    rw [List.getD_eq_getElem x default hk, List.getD_eq_getElem x default hi]
    exact hnd.getElem_inj_iff
  rw [List.filter_congr hcongr, range_filter_eq_singleton hi]

theorem window_head {α : Type} [Inhabited α] (x : List α) {i L : ℕ}
    (hL : 0 < L) :
    ((x.drop i).take L).getD 0 default = x.getD i default := by
  rw [List.getD_eq_getElem?_getD, List.getD_eq_getElem?_getD,
    List.getElem?_take, if_pos hL, List.getElem?_drop]
  simp

theorem birnbaum_simil_self_nodup {α : Type} [DecidableEq α] [Inhabited α]
    (x : List α) (hnd : x.Nodup) :
    similarity.birnbaum_simil x x = tri x.length := by
  unfold similarity.birnbaum_simil
  simp only [lt_self_iff_false, if_false]
  have houter : ∀ t ∈ List.range x.length,
      ((similarity._nwise x (x.length - t)).map (fun w =>
        ((similarity._indices x (w.getD 0 default)).filter
          (fun i => decide ((x.drop i).take (x.length - t) = w))).length)).sum
        = t + 1 := by
    intro t ht
    rw [List.mem_range] at ht
    have hL1 : 1 ≤ x.length - t := by omega
    rw [similarity._nwise, List.map_map]
    have hcount : ∀ i ∈ List.range (x.length + 1 - (x.length - t)),
        ((fun w =>
            ((similarity._indices x (w.getD 0 default)).filter
              (fun k => decide ((x.drop k).take (x.length - t) = w))).length) ∘
          (fun i => (x.drop i).take (x.length - t))) i = 1 := by
      intro i hi
      rw [List.mem_range] at hi
      have hin : i < x.length := by omega
      simp only [Function.comp_apply]
      rw [window_head x hL1, indices_self_nodup hnd hin]
      simp [List.filter]
    rw [sum_map_one hcount, List.length_range]
    omega
  rw [List.map_congr_left houter, sum_range_map_succ_eq_tri]

/-- C5 amended: the fast (block-matching) Birnbaum self-similarity is
exactly `n * (n + 1) / 2` for EVERY sequence (the identity shortcut);
the exhaustive self-similarity equals `n * (n + 1) / 2` when the
sequence has no repeated elements, but exceeds it in general (see
`birnbaum_self_simil_duplicates`: the exhaustive method counts every
occurrence of each repeated window). -/

theorem birnbaum_self_simil_amended {α : Type} [DecidableEq α] [Inhabited α]
    (x : List α) :
    similarity.fast_birnbaum_simil x x = x.length * (x.length + 1) / 2 ∧
    (x.Nodup → similarity.birnbaum_simil x x = x.length * (x.length + 1) / 2) := by
  constructor
  · rw [similarity.fast_birnbaum_simil, if_pos rfl]
  · intro hnd
    exact birnbaum_simil_self_nodup x hnd

/-- Witness for `birnbaum_self_simil_amended` at `x = [0, 1, 2]`. -/

theorem birnbaum_self_simil_amended_witness :
    similarity.birnbaum_simil ([0, 1, 2] : List ℕ) [0, 1, 2] = 3 * (3 + 1) / 2 :=
  (birnbaum_self_simil_amended [0, 1, 2]).2 (by decide)

namespace common

theorem wfM_le_of {seed : ℕ → ℕ → ℚ} {cands : (ℕ → ℕ → ℚ) → ℕ → ℕ → List ℚ}
    (hl : CandLocal cands) (g : ℕ → ℕ → ℚ)
    (hseed : ∀ i j, i = 0 ∨ j = 0 → seed i j ≤ g i j)
    (hstep : ∀ i j, 1 ≤ i → 1 ≤ j →
      (∀ a b, a + b < i + j → wfM seed cands a b ≤ g a b) →
      ∃ c ∈ cands (wfM seed cands) i j, c ≤ g i j) :
    ∀ i j, wfM seed cands i j ≤ g i j := by
  have H : ∀ (n i j : ℕ), i + j ≤ n → wfM seed cands i j ≤ g i j := by
    intro n
    induction n with
    | zero =>
      intro i j hn
      have h0 : i = 0 ∨ j = 0 := by omega
      rw [wfM_boundary seed cands h0]
      exact hseed i j h0
    | succ n ih =>
      intro i j hn
      by_cases h0 : i = 0 ∨ j = 0
      · rw [wfM_boundary seed cands h0]
        exact hseed i j h0
      · push_neg at h0
        have hlow : ∀ a b, a + b < i + j → wfM seed cands a b ≤ g a b :=
          fun a b hab => ih a b (by omega)
        obtain ⟨c, hc, hcg⟩ := hstep i j (by omega) (by omega) hlow
        rw [wfM_rec hl (by omega) (by omega)]
        exact le_trans (minList_le hc) hcg
  exact fun i j => H (i + j) i j le_rfl

theorem le_wfM_of {seed : ℕ → ℕ → ℚ} {cands : (ℕ → ℕ → ℚ) → ℕ → ℕ → List ℚ}
    (hl : CandLocal cands) (f : ℕ → ℕ → ℚ)
    (hseed : ∀ i j, i = 0 ∨ j = 0 → f i j ≤ seed i j)
    (hne : ∀ i j, 1 ≤ i → 1 ≤ j → cands (wfM seed cands) i j ≠ [])
    (hstep : ∀ i j, 1 ≤ i → 1 ≤ j →
      (∀ a b, a + b < i + j → f a b ≤ wfM seed cands a b) →
      ∀ c ∈ cands (wfM seed cands) i j, f i j ≤ c) :
    ∀ i j, f i j ≤ wfM seed cands i j := by
  have H : ∀ (n i j : ℕ), i + j ≤ n → f i j ≤ wfM seed cands i j := by
    intro n
    induction n with
    | zero =>
      intro i j hn
      have h0 : i = 0 ∨ j = 0 := by omega
      rw [wfM_boundary seed cands h0]
      exact hseed i j h0
    | succ n ih =>
      intro i j hn
      by_cases h0 : i = 0 ∨ j = 0
      · rw [wfM_boundary seed cands h0]
        exact hseed i j h0
      · push_neg at h0
        have hlow : ∀ a b, a + b < i + j → f a b ≤ wfM seed cands a b :=
          fun a b hab => ih a b (by omega)
        rw [wfM_rec hl (by omega) (by omega)]
        exact le_minList (hne i j (by omega) (by omega))
          (hstep i j (by omega) (by omega) hlow)
  exact fun i j => H (i + j) i j le_rfl

end common

theorem minList_swap01 (a b : ℚ) (rest : List ℚ) :
    minList (a :: b :: rest) = minList (b :: a :: rest) := by
  show (b :: rest).foldl min a = (a :: rest).foldl min b
  rw [List.foldl_cons, List.foldl_cons, min_comm]

theorem lev_matrix_symm {α : Type} [DecidableEq α] [Inhabited α]
    (x y : List α) :
    ∀ (n i j : ℕ), i + j ≤ n →
      common.wfM common.defaultSeed (edit._levenshtein_costs x y) i j =
        common.wfM common.defaultSeed (edit._levenshtein_costs y x) j i := by
  intro n
  induction n with
  | zero =>
    intro i j hn
    have hi : i = 0 := by omega
    have hj : j = 0 := by omega
    subst hi; subst hj
    rfl
  | succ n ih =>
    intro i j hn
    by_cases h0 : i = 0 ∨ j = 0
    · rw [common.wfM_boundary _ _ h0,
        common.wfM_boundary _ _ (Or.symm h0)]
      rcases h0 with h | h
      · subst h
        by_cases hj : j = 0 <;> simp [common.defaultSeed, hj]
      · subst h
        by_cases hi : i = 0 <;> simp [common.defaultSeed, hi]
    · push_neg at h0
      rw [common.wfM_rec (edit._levenshtein_costs_local x y) (by omega) (by omega),
        common.wfM_rec (edit._levenshtein_costs_local y x) (by omega) (by omega)]
      have hLHS : edit._levenshtein_costs x y
          (common.wfM common.defaultSeed (edit._levenshtein_costs x y)) i j =
        [common.wfM common.defaultSeed (edit._levenshtein_costs x y) (i - 1) j + 1,
          common.wfM common.defaultSeed (edit._levenshtein_costs x y) i (j - 1) + 1,
          common.wfM common.defaultSeed (edit._levenshtein_costs x y) (i - 1) (j - 1) +
            (if x.getD (i - 1) default = y.getD (j - 1) default then (0 : ℚ) else 1)] := rfl
      have hRHS : edit._levenshtein_costs y x
          (common.wfM common.defaultSeed (edit._levenshtein_costs y x)) j i =
        [common.wfM common.defaultSeed (edit._levenshtein_costs y x) (j - 1) i + 1,
          common.wfM common.defaultSeed (edit._levenshtein_costs y x) j (i - 1) + 1,
          common.wfM common.defaultSeed (edit._levenshtein_costs y x) (j - 1) (i - 1) +
            (if y.getD (j - 1) default = x.getD (i - 1) default then (0 : ℚ) else 1)] := rfl
      rw [hLHS, hRHS, ih (i - 1) j (by omega), ih i (j - 1) (by omega),
        ih (i - 1) (j - 1) (by omega),
        if_congr eq_comm rfl rfl]
      exact minList_swap01 _ _ _

theorem levdam_matrix_symm {α : Type} [DecidableEq α] [Inhabited α]
    (x y : List α) :
    ∀ (n i j : ℕ), i + j ≤ n →
      common.wfM common.defaultSeed (edit._levdamerau_costs x y) i j =
        common.wfM common.defaultSeed (edit._levdamerau_costs y x) j i := by
  intro n
  induction n with
  | zero =>
    intro i j hn
    have hi : i = 0 := by omega
    have hj : j = 0 := by omega
    subst hi; subst hj
    rfl
  | succ n ih =>
    intro i j hn
    by_cases h0 : i = 0 ∨ j = 0
    · rw [common.wfM_boundary _ _ h0,
        common.wfM_boundary _ _ (Or.symm h0)]
      rcases h0 with h | h
      · subst h
        by_cases hj : j = 0 <;> simp [common.defaultSeed, hj]
      · subst h
        by_cases hi : i = 0 <;> simp [common.defaultSeed, hi]
    · push_neg at h0
      rw [common.wfM_rec (edit._levdamerau_costs_local x y) (by omega) (by omega),
        common.wfM_rec (edit._levdamerau_costs_local y x) (by omega) (by omega)]
      have hcond : (1 < i ∧ 1 < j ∧ x.getD (i - 1) default = y.getD (j - 2) default ∧
            x.getD (i - 2) default = y.getD (j - 1) default) ↔
          (1 < j ∧ 1 < i ∧ y.getD (j - 1) default = x.getD (i - 2) default ∧
            y.getD (j - 2) default = x.getD (i - 1) default) := by
        constructor
        · rintro ⟨a, b, c, d⟩; exact ⟨b, a, d.symm, c.symm⟩
        · rintro ⟨a, b, c, d⟩; exact ⟨b, a, d.symm, c.symm⟩
      have hLHS : edit._levdamerau_costs x y
          (common.wfM common.defaultSeed (edit._levdamerau_costs x y)) i j =
        [common.wfM common.defaultSeed (edit._levdamerau_costs x y) (i - 1) j + 1,
          common.wfM common.defaultSeed (edit._levdamerau_costs x y) i (j - 1) + 1,
          common.wfM common.defaultSeed (edit._levdamerau_costs x y) (i - 1) (j - 1) +
            (if x.getD (i - 1) default = y.getD (j - 1) default then (0 : ℚ) else 1)] ++
          (if 1 < i ∧ 1 < j ∧ x.getD (i - 1) default = y.getD (j - 2) default ∧
              x.getD (i - 2) default = y.getD (j - 1) default
            then [common.wfM common.defaultSeed (edit._levdamerau_costs x y) (i - 2) (j - 2) + 1]
            else []) := rfl
      have hRHS : edit._levdamerau_costs y x
          (common.wfM common.defaultSeed (edit._levdamerau_costs y x)) j i =
        [common.wfM common.defaultSeed (edit._levdamerau_costs y x) (j - 1) i + 1,
          common.wfM common.defaultSeed (edit._levdamerau_costs y x) j (i - 1) + 1,
          common.wfM common.defaultSeed (edit._levdamerau_costs y x) (j - 1) (i - 1) +
            (if y.getD (j - 1) default = x.getD (i - 1) default then (0 : ℚ) else 1)] ++
          (if 1 < j ∧ 1 < i ∧ y.getD (j - 1) default = x.getD (i - 2) default ∧
              y.getD (j - 2) default = x.getD (i - 1) default
            then [common.wfM common.defaultSeed (edit._levdamerau_costs y x) (j - 2) (i - 2) + 1]
            else []) := rfl
      rw [hLHS, hRHS, ih (i - 1) j (by omega), ih i (j - 1) (by omega),
        ih (i - 1) (j - 1) (by omega), ih (i - 2) (j - 2) (by omega),
        if_congr eq_comm rfl rfl]
      simp only [hcond]
      exact minList_swap01 _ _ _

set_option maxHeartbeats 1600000 in

/-- C3 counterexample: four of the listed methods are NOT symmetric on
the code.  `bulk_delete_dist` (deletions are blocked, insertions are
not): 1 vs 2 on `[0,0,1]` / `[1]`; `birnbaum_dist` and
`fast_birnbaum_dist` (the `difflib` block score is asymmetric for
equal-length inputs, which the internal length-swap does not reorder):
5/6 vs 2/3 on `[0,1,0]` / `[1,2,0]`; `mmcwpa_dist` (the greedy pattern
search scans `F_x`'s fragments for patterns to locate in `F_y`): SSNC 4
vs 8 on `[0,2,1]` / `[2,3,1]`, hence different distances. -/

theorem dist_symmetry_counterexample :
    edit.bulk_delete_dist ([0, 0, 1] : List ℕ) [1] 5 false = some 1 ∧
    edit.bulk_delete_dist ([1] : List ℕ) [0, 0, 1] 5 false = some 2 ∧
    edit.birnbaum_dist ([0, 1, 0] : List ℕ) [1, 2, 0] false = some (5 / 6) ∧
    edit.birnbaum_dist ([1, 2, 0] : List ℕ) [0, 1, 0] false = some (2 / 3) ∧
    edit.fast_birnbaum_dist ([0, 1, 0] : List ℕ) [1, 2, 0] false = some (5 / 6) ∧
    edit.fast_birnbaum_dist ([1, 2, 0] : List ℕ) [0, 1, 0] false = some (2 / 3) ∧
    edit.mmcwpa_dist ([0, 2, 1] : List ℕ) [2, 3, 1] false ≠
      edit.mmcwpa_dist ([2, 3, 1] : List ℕ) [0, 2, 1] false := by
  have hs1 : edit.mmcwpaSsnc ([0, 2, 1] : List ℕ) [2, 3, 1] = 4 := by
    norm_num [edit.mmcwpaSsnc, edit.mmcwpaLoopAux, edit._mmcwpa, edit.findPattern,
      edit.findInFy, common.sequence_find, List.findSome?, List.find?,
      List.range, List.range.loop, List.filter]
  have hs2 : edit.mmcwpaSsnc ([2, 3, 1] : List ℕ) [0, 2, 1] = 8 := by
    norm_num [edit.mmcwpaSsnc, edit.mmcwpaLoopAux, edit._mmcwpa, edit.findPattern,
      edit.findInFy, common.sequence_find, List.findSome?, List.find?,
      List.range, List.range.loop, List.filter]
    all_goals decide
  have hb1 : difflib.get_matching_blocks ([0, 1, 0] : List ℕ) [1, 2, 0] =
      [(0, 2, 1)] := by decide
  have hb2 : difflib.get_matching_blocks ([1, 2, 0] : List ℕ) [0, 1, 0] =
      [(0, 1, 1), (2, 2, 1)] := by decide
  refine ⟨?_, ?_, ?_, ?_, ?_, ?_, ?_⟩
  · norm_num [edit.bulk_delete_dist, common._wagner_fischer, common.wfAux,
      edit._bulk_delete_costs, edit._bulk_delete_initial_matrix, minList,
      List.range', min_def]
  · norm_num [edit.bulk_delete_dist, common._wagner_fischer, common.wfAux,
      edit._bulk_delete_costs, edit._bulk_delete_initial_matrix, minList,
      List.range', min_def]
  · norm_num [edit.birnbaum_dist, edit.birnbaum_simil, tri, hb1, max_def]
  · norm_num [edit.birnbaum_dist, edit.birnbaum_simil, tri, hb2, max_def]
  · norm_num [edit.fast_birnbaum_dist, edit.birnbaum_simil, tri, hb1]
  · norm_num [edit.fast_birnbaum_dist, edit.birnbaum_simil, tri, hb2]
  · intro heq
    rw [edit.mmcwpa_dist, edit.mmcwpa_dist, if_neg (by norm_num), if_neg (by norm_num),
      hs1, hs2, Option.some.injEq] at heq
    have heq2 : Real.sqrt (((4 : ℚ) : ℝ) / ((((3 : ℕ) + 3 : ℕ)) : ℝ) ^ 2) =
        Real.sqrt (((8 : ℚ) : ℝ) / ((((3 : ℕ) + 3 : ℕ)) : ℝ) ^ 2) := by
      norm_num at heq ⊢
      linarith
    rw [Real.sqrt_inj (by positivity) (by positivity)] at heq2
    norm_num at heq2

theorem jaccard_dist_symm {α : Type} [DecidableEq α] (x y : List α)
    (normal : Bool) :
    token.jaccard_dist x y normal = token.jaccard_dist y x normal := by
  unfold token.jaccard_dist
  rw [Finset.inter_comm, Nat.add_comm x.length y.length]

theorem subseq_jaccard_dist_symm {α : Type} [DecidableEq α] [LinearOrder α]
    (x y : List α) (normal : Bool) :
    token.subseq_jaccard_dist x y normal = token.subseq_jaccard_dist y x normal := by
  unfold token.subseq_jaccard_dist
  dsimp only
  have hU : (token.subseqUnion (common.collect_subseqs y true)
        (common.collect_subseqs x true) : ℕ → ℕ) =
      token.subseqUnion (common.collect_subseqs x true)
        (common.collect_subseqs y true) := by
    funext L
    unfold token.subseqUnion
    dsimp only
    rw [Finset.inter_comm, Nat.add_comm]
  have hS : (token.subseqScore (common.collect_subseqs y true)
        (common.collect_subseqs x true) : ℕ → ℚ) =
      token.subseqScore (common.collect_subseqs x true)
        (common.collect_subseqs y true) := by
    funext L
    unfold token.subseqScore
    dsimp only
    rw [Finset.inter_comm, Nat.add_comm]
  rw [max_comm y.length x.length, hU, hS]

/-- C3 amended: of the listed methods, `levenshtein_dist`,
`levdamerau_dist`, `jaccard_dist` and `subseq_jaccard_dist` are
symmetric for ALL sequences (and for both values of `normal`);
`bulk_delete_dist`, `mmcwpa_dist`, `birnbaum_dist` and
`fast_birnbaum_dist` are not (see `dist_symmetry_counterexample`). -/

theorem dist_symmetry_amended {α : Type} [DecidableEq α] [Inhabited α]
    [LinearOrder α] (x y : List α) (normal : Bool) :
    edit.levenshtein_dist x y normal = edit.levenshtein_dist y x normal ∧
    edit.levdamerau_dist x y normal = edit.levdamerau_dist y x normal ∧
    token.jaccard_dist x y normal = token.jaccard_dist y x normal ∧
    token.subseq_jaccard_dist x y normal = token.subseq_jaccard_dist y x normal := by
  refine ⟨?_, ?_, jaccard_dist_symm x y normal, subseq_jaccard_dist_symm x y normal⟩
  · unfold edit.levenshtein_dist
    dsimp only
    rw [common._wagner_fischer_eq_wfM, common._wagner_fischer_eq_wfM,
      lev_matrix_symm x y (x.length + y.length) x.length y.length le_rfl,
      max_comm x.length y.length]
  · unfold edit.levdamerau_dist
    dsimp only
    rw [common._wagner_fischer_eq_wfM, common._wagner_fischer_eq_wfM,
      levdam_matrix_symm x y (x.length + y.length) x.length y.length le_rfl,
      max_comm x.length y.length]

theorem defaultSeed_nonneg (i j : ℕ) : 0 ≤ common.defaultSeed i j := by
  unfold common.defaultSeed
  split_ifs <;> positivity

theorem lev_wfM_nonneg {α : Type} [DecidableEq α] [Inhabited α] (x y : List α) :
    ∀ i j, 0 ≤ common.wfM common.defaultSeed (edit._levenshtein_costs x y) i j := by
  refine common.le_wfM_of (edit._levenshtein_costs_local x y) (fun _ _ => 0)
    (fun i j _ => defaultSeed_nonneg i j) (fun i j _ _ => by simp [edit._levenshtein_costs])
    ?_
  intro i j hi hj hlow c hc
  simp only [edit._levenshtein_costs, List.mem_cons, List.not_mem_nil, or_false] at hc
  rcases hc with h | h | h <;> subst h
  · have := hlow (i - 1) j (by omega); linarith
  · have := hlow i (j - 1) (by omega); linarith
  · have := hlow (i - 1) (j - 1) (by omega)
    split_ifs <;> linarith

theorem lev_wfM_le_max {α : Type} [DecidableEq α] [Inhabited α] (x y : List α) :
    ∀ i j, common.wfM common.defaultSeed (edit._levenshtein_costs x y) i j ≤
      ((max i j : ℕ) : ℚ) := by
  refine common.wfM_le_of (edit._levenshtein_costs_local x y)
    (fun i j => ((max i j : ℕ) : ℚ)) ?_ ?_
  · intro i j h
    unfold common.defaultSeed
    rcases h with h | h <;> subst h
    · simp
    · split_ifs with h0
      · subst h0; simp
      · show (i : ℚ) ≤ ((max i 0 : ℕ) : ℚ)
        exact_mod_cast Nat.le_max_left i 0
  · intro i j hi hj hlow
    refine ⟨common.wfM common.defaultSeed (edit._levenshtein_costs x y) (i - 1) (j - 1) +
      (if x.getD (i - 1) default = y.getD (j - 1) default then (0 : ℚ) else 1), ?_, ?_⟩
    · simp [edit._levenshtein_costs]
    · have hl := hlow (i - 1) (j - 1) (by omega)
      have hmax : max (i - 1) (j - 1) + 1 = max i j := by omega
      have hcast : ((max (i - 1) (j - 1) : ℕ) : ℚ) + 1 = ((max i j : ℕ) : ℚ) := by
        rw [← hmax]; push_cast; ring
      split_ifs <;> linarith

theorem levdam_wfM_nonneg {α : Type} [DecidableEq α] [Inhabited α] (x y : List α) :
    ∀ i j, 0 ≤ common.wfM common.defaultSeed (edit._levdamerau_costs x y) i j := by
  refine common.le_wfM_of (edit._levdamerau_costs_local x y) (fun _ _ => 0)
    (fun i j _ => defaultSeed_nonneg i j)
    (fun i j _ _ => by simp [edit._levdamerau_costs]) ?_
  intro i j hi hj hlow c hc
  simp only [edit._levdamerau_costs, List.mem_append, List.mem_cons,
    List.not_mem_nil, or_false] at hc
  rcases hc with (h | h | h) | h
  · subst h; have := hlow (i - 1) j (by omega); linarith
  · subst h; have := hlow i (j - 1) (by omega); linarith
  · subst h
    have := hlow (i - 1) (j - 1) (by omega)
    split_ifs <;> linarith
  · split_ifs at h with hcnd
    · simp only [List.mem_cons, List.not_mem_nil, or_false] at h
      subst h
      have := hlow (i - 2) (j - 2) (by omega)
      linarith
    · simp at h

theorem levdam_wfM_le_max {α : Type} [DecidableEq α] [Inhabited α] (x y : List α) :
    ∀ i j, common.wfM common.defaultSeed (edit._levdamerau_costs x y) i j ≤
      ((max i j : ℕ) : ℚ) := by
  refine common.wfM_le_of (edit._levdamerau_costs_local x y)
    (fun i j => ((max i j : ℕ) : ℚ)) ?_ ?_
  · intro i j h
    unfold common.defaultSeed
    rcases h with h | h <;> subst h
    · simp
    · split_ifs with h0
      · subst h0; simp
      · show (i : ℚ) ≤ ((max i 0 : ℕ) : ℚ)
        exact_mod_cast Nat.le_max_left i 0
  · intro i j hi hj hlow
    refine ⟨common.wfM common.defaultSeed (edit._levdamerau_costs x y) (i - 1) (j - 1) +
      (if x.getD (i - 1) default = y.getD (j - 1) default then (0 : ℚ) else 1), ?_, ?_⟩
    · simp [edit._levdamerau_costs]
    · have hl := hlow (i - 1) (j - 1) (by omega)
      have hmax : max (i - 1) (j - 1) + 1 = max i j := by omega
      have hcast : ((max (i - 1) (j - 1) : ℕ) : ℚ) + 1 = ((max i j : ℕ) : ℚ) := by
        rw [← hmax]; push_cast; ring
      split_ifs <;> linarith

theorem bulk_seed_le (i mdl : ℕ) (h : 1 ≤ mdl) :
    i / mdl + (if i % mdl = 0 then 0 else 1) ≤ i := by
  obtain ⟨t, ht1, ht2⟩ : ∃ t, t + i % mdl = i ∧ i / mdl ≤ t :=
    ⟨mdl * (i / mdl), Nat.div_add_mod i mdl, Nat.le_mul_of_pos_left _ h⟩
  split_ifs with h0 <;> omega

theorem bulk_wfM_nonneg {α : Type} [DecidableEq α] [Inhabited α]
    (x y : List α) (mdl : ℕ) :
    ∀ i j, 0 ≤ common.wfM (edit._bulk_delete_initial_matrix x y mdl)
      (edit._bulk_delete_costs mdl x y) i j := by
  refine common.le_wfM_of (edit._bulk_delete_costs_local mdl x y) (fun _ _ => 0)
    ?_ ?_ ?_
  · intro i j h
    unfold edit._bulk_delete_initial_matrix
    split_ifs <;> positivity
  · intro i j hi hj
    simp [edit._bulk_delete_costs]
  · intro i j hi hj hlow c hc
    simp only [edit._bulk_delete_costs, List.mem_append, List.mem_cons,
      List.not_mem_nil, or_false, List.mem_map, List.mem_range'] at hc
    rcases hc with (h | h) | ⟨n, hn, h⟩
    · subst h; have := hlow i (j - 1) (by omega); linarith
    · subst h
      have := hlow (i - 1) (j - 1) (by omega)
      split_ifs <;> linarith
    · subst h
      have := hlow (i - n) j (by omega)
      linarith

theorem bulk_wfM_le_max {α : Type} [DecidableEq α] [Inhabited α]
    (x y : List α) (mdl : ℕ) (hmdl : 1 ≤ mdl) :
    ∀ i j, common.wfM (edit._bulk_delete_initial_matrix x y mdl)
      (edit._bulk_delete_costs mdl x y) i j ≤ ((max i j : ℕ) : ℚ) := by
  refine common.wfM_le_of (edit._bulk_delete_costs_local mdl x y)
    (fun i j => ((max i j : ℕ) : ℚ)) ?_ ?_
  · intro i j h
    unfold edit._bulk_delete_initial_matrix
    rcases h with h | h <;> subst h
    · simp
    · by_cases h0 : i = 0
      · simp [h0]
      · rw [if_neg h0, if_pos rfl]
        show ((i / mdl + if i % mdl = 0 then 0 else 1 : ℕ) : ℚ) ≤
          ((max i 0 : ℕ) : ℚ)
        exact_mod_cast le_trans (bulk_seed_le i mdl hmdl) (Nat.le_max_left i 0)
  · intro i j hi hj hlow
    refine ⟨common.wfM (edit._bulk_delete_initial_matrix x y mdl)
      (edit._bulk_delete_costs mdl x y) (i - 1) (j - 1) +
      (if x.getD (i - 1) default = y.getD (j - 1) default then (0 : ℚ) else 1),
      ?_, ?_⟩
    · simp [edit._bulk_delete_costs]
    · have hl := hlow (i - 1) (j - 1) (by omega)
      have hmax : max (i - 1) (j - 1) + 1 = max i j := by omega
      have hcast : ((max (i - 1) (j - 1) : ℕ) : ℚ) + 1 = ((max i j : ℕ) : ℚ) := by
        rw [← hmax]; push_cast; ring
      split_ifs <;> linarith

theorem stem_col_nonneg (mdl : ℕ) (zone : ℕ → Bool) :
    ∀ fuel i, 0 ≤ edit._stemmatological_col mdl zone fuel i := by
  intro fuel
  induction fuel with
  | zero => intro i; simp [edit._stemmatological_col]
  | succ fuel ih =>
    intro i
    unfold edit._stemmatological_col
    split_ifs with h0 hz
    · norm_num
    · have := ih (i - min i mdl); linarith
    · have := ih (i - min i mdl); linarith

theorem stem_col_le (mdl : ℕ) (hmdl : 1 ≤ mdl) (zone : ℕ → Bool) :
    ∀ fuel i, edit._stemmatological_col mdl zone fuel i ≤ (i : ℚ) := by
  intro fuel
  induction fuel with
  | zero => intro i; simp [edit._stemmatological_col]
  | succ fuel ih =>
    intro i
    unfold edit._stemmatological_col
    split_ifs with h0 hz
    · simp
    · have hk : 1 ≤ min i mdl := by omega
      have hih := ih (i - min i mdl)
      have hcast : ((i - min i mdl : ℕ) : ℚ) + 1 ≤ (i : ℚ) := by
        have hn : i - min i mdl + 1 ≤ i := by omega
        exact_mod_cast hn
      linarith
    · have hk : 1 ≤ min i mdl := by omega
      have hih := ih (i - min i mdl)
      have hcast : ((i - min i mdl : ℕ) : ℚ) + 1 ≤ (i : ℚ) := by
        have hn : i - min i mdl + 1 ≤ i := by omega
        exact_mod_cast hn
      linarith

theorem stem_wfM_nonneg {α : Type} [DecidableEq α] [Inhabited α]
    (x y : List α) (mdl : ℕ) (fs fe : ℚ) :
    ∀ i j, 0 ≤ common.wfM
      (edit._stemmatological_initial_matrix x y mdl fs fe)
      (edit._stemmatological_costs mdl fs fe x y) i j := by
  refine common.le_wfM_of (edit._stemmatological_costs_local mdl fs fe x y)
    (fun _ _ => 0) ?_ ?_ ?_
  · intro i j h
    unfold edit._stemmatological_initial_matrix
    split_ifs with h1 h2
    · positivity
    · exact stem_col_nonneg mdl _ i i
    · norm_num
  · intro i j hi hj
    simp [edit._stemmatological_costs]
  · intro i j hi hj hlow c hc
    have hlow' : ∀ a b, a + b < i + j → (0 : ℚ) ≤ common.wfM
        (edit._stemmatological_initial_matrix x y mdl fs fe)
        (edit._stemmatological_costs mdl fs fe x y) a b := hlow
    show (0 : ℚ) ≤ c
    simp only [edit._stemmatological_costs, List.mem_append, List.mem_cons,
      List.not_mem_nil, or_false, List.mem_map, List.mem_range'] at hc
    rcases hc with (h | h) | ⟨n, hn, h⟩
    · subst h; have := hlow' i (j - 1) (by omega); linarith
    · subst h
      have := hlow' (i - 1) (j - 1) (by omega)
      split_ifs <;> linarith
    · subst h
      have := hlow' (i - n) j (by omega)
      split_ifs <;> linarith

theorem stem_wfM_le_max {α : Type} [DecidableEq α] [Inhabited α]
    (x y : List α) (mdl : ℕ) (hmdl : 1 ≤ mdl) (fs fe : ℚ) :
    ∀ i j, common.wfM
      (edit._stemmatological_initial_matrix x y mdl fs fe)
      (edit._stemmatological_costs mdl fs fe x y) i j ≤ ((max i j : ℕ) : ℚ) := by
  refine common.wfM_le_of (edit._stemmatological_costs_local mdl fs fe x y)
    (fun i j => ((max i j : ℕ) : ℚ)) ?_ ?_
  · intro i j h
    unfold edit._stemmatological_initial_matrix
    rcases h with h | h <;> subst h
    · simp
    · by_cases h0 : i = 0
      · simp [h0]
      · rw [if_neg h0, if_pos rfl]
        refine le_trans (stem_col_le mdl hmdl _ i i) ?_
        show (i : ℚ) ≤ ((max i 0 : ℕ) : ℚ)
        exact_mod_cast Nat.le_max_left i 0
  · intro i j hi hj hlow
    refine ⟨common.wfM (edit._stemmatological_initial_matrix x y mdl fs fe)
      (edit._stemmatological_costs mdl fs fe x y) (i - 1) (j - 1) +
      (if x.getD (i - 1) default = y.getD (j - 1) default then (0 : ℚ) else 1),
      ?_, ?_⟩
    · simp [edit._stemmatological_costs]
    · have hl := hlow (i - 1) (j - 1) (by omega)
      have hmax : max (i - 1) (j - 1) + 1 = max i j := by omega
      have hcast : ((max (i - 1) (j - 1) : ℕ) : ℚ) + 1 = ((max i j : ℕ) : ℚ) := by
        rw [← hmax]; push_cast; ring
      split_ifs <;> linarith

theorem fragile_col_nonneg (m : ℕ) : ∀ i, 0 ≤ edit._fragile_ends_col m i := by
  intro i
  induction i with
  | zero => simp [edit._fragile_ends_col]
  | succ i ih =>
    unfold edit._fragile_ends_col
    split_ifs <;> linarith

theorem fragile_col_ge_half (m : ℕ) :
    ∀ i : ℕ, (i : ℚ) / 2 ≤ edit._fragile_ends_col m i := by
  intro i
  induction i with
  | zero => simp [edit._fragile_ends_col]
  | succ i ih =>
    unfold edit._fragile_ends_col
    push_cast
    split_ifs <;> linarith

theorem fragile_wfM_nonneg {α : Type} [DecidableEq α] [Inhabited α]
    (x y : List α) :
    ∀ i j, 0 ≤ common.wfM (edit._fragile_ends_initial_matrix x y)
      (edit._fragile_ends_costs x y) i j := by
  refine common.le_wfM_of (edit._fragile_ends_costs_local x y)
    (fun _ _ => 0) ?_ ?_ ?_
  · intro i j h
    show (0 : ℚ) ≤ edit._fragile_ends_initial_matrix x y i j
    unfold edit._fragile_ends_initial_matrix
    split_ifs with h1 h2
    · positivity
    · exact fragile_col_nonneg x.length i
    · norm_num
  · intro i j hi hj
    simp [edit._fragile_ends_costs]
  · intro i j hi hj hlow c hc
    have hlow' : ∀ a b, a + b < i + j → (0 : ℚ) ≤ common.wfM
        (edit._fragile_ends_initial_matrix x y)
        (edit._fragile_ends_costs x y) a b := hlow
    show (0 : ℚ) ≤ c
    simp only [edit._fragile_ends_costs, List.mem_cons, List.not_mem_nil,
      or_false] at hc
    rcases hc with h | h | h
    · subst h; have := hlow' i (j - 1) (by omega); linarith
    · subst h
      have := hlow' (i - 1) (j - 1) (by omega)
      split_ifs <;> linarith
    · subst h
      have := hlow' (i - 1) j (by omega)
      split_ifs <;> linarith

theorem fragile_wfM_ge {α : Type} [DecidableEq α] [Inhabited α]
    (x y : List α) :
    ∀ i j : ℕ, ((i : ℚ) - j) / 2 ≤ common.wfM
      (edit._fragile_ends_initial_matrix x y)
      (edit._fragile_ends_costs x y) i j := by
  refine common.le_wfM_of (edit._fragile_ends_costs_local x y)
    (fun i j => ((i : ℚ) - j) / 2) ?_ ?_ ?_
  · intro i j h
    show ((i : ℚ) - j) / 2 ≤ edit._fragile_ends_initial_matrix x y i j
    unfold edit._fragile_ends_initial_matrix
    rcases h with h | h <;> subst h
    · rw [if_pos rfl]
      have hj : (0 : ℚ) ≤ (j : ℚ) := by positivity
      push_cast
      linarith
    · by_cases h0 : i = 0
      · subst h0; norm_num
      · rw [if_neg h0, if_pos rfl]
        have := fragile_col_ge_half x.length i
        push_cast
        linarith
  · intro i j hi hj
    simp [edit._fragile_ends_costs]
  · intro i j hi hj hlow c hc
    have hlow' : ∀ a b, a + b < i + j → ((a : ℚ) - b) / 2 ≤ common.wfM
        (edit._fragile_ends_initial_matrix x y)
        (edit._fragile_ends_costs x y) a b := hlow
    show ((i : ℚ) - j) / 2 ≤ c
    have hci : ((i - 1 : ℕ) : ℚ) = (i : ℚ) - 1 := by
      rw [Nat.cast_sub hi, Nat.cast_one]
    have hcj : ((j - 1 : ℕ) : ℚ) = (j : ℚ) - 1 := by
      rw [Nat.cast_sub hj, Nat.cast_one]
    simp only [edit._fragile_ends_costs, List.mem_cons, List.not_mem_nil,
      or_false] at hc
    rcases hc with h | h | h
    · subst h
      have hl := hlow' i (j - 1) (by omega)
      rw [hcj] at hl
      linarith
    · subst h
      have hl := hlow' (i - 1) (j - 1) (by omega)
      rw [hci, hcj] at hl
      split_ifs <;> linarith
    · subst h
      have hl := hlow' (i - 1) j (by omega)
      rw [hci] at hl
      split_ifs <;> linarith

theorem sum_tri_le_tri_sumSizes (l : List (ℕ × ℕ × ℕ)) :
    (l.map (fun m => tri m.2.2)).sum ≤ tri (difflib.sumSizes l) := by
  induction l with
  | nil => simp [difflib.sumSizes, tri]
  | cons hd tl ih =>
    have h2 := tri_superadd hd.2.2 (difflib.sumSizes tl)
    simp only [difflib.sumSizes, List.map_cons, List.sum_cons] at h2 ⊢
    exact le_trans (Nat.add_le_add_left ih _) h2

theorem birnbaum_norm_aux {α : Type} [DecidableEq α] [Inhabited α]
    (sx sy : List α) (hsx : sx ≠ []) :
    0 ≤ (((difflib.get_matching_blocks sx sy).map (fun m => tri m.2.2)).sum : ℚ) /
        ((max (tri sx.length) (tri sy.length) : ℕ) : ℚ) ∧
      (((difflib.get_matching_blocks sx sy).map (fun m => tri m.2.2)).sum : ℚ) /
        ((max (tri sx.length) (tri sy.length) : ℕ) : ℚ) ≤ 1 := by
  have hxl : 1 ≤ sx.length := List.length_pos.mpr hsx
  have hden : 1 ≤ max (tri sx.length) (tri sy.length) := by
    have h1 : 1 ≤ tri sx.length := by
      have := tri_mono hxl
      simpa [tri] using this
    exact le_trans h1 (Nat.le_max_left _ _)
  have hnum : ((difflib.get_matching_blocks sx sy).map (fun m => tri m.2.2)).sum ≤
      max (tri sx.length) (tri sy.length) := by
    refine le_trans (sum_tri_le_tri_sumSizes _) ?_
    refine le_trans (tri_mono (difflib.sumSizes_get_matching_blocks_le sx sy)) ?_
    exact le_trans (tri_mono (Nat.min_le_left _ _)) (Nat.le_max_left _ _)
  have hdenQ : (0 : ℚ) < ((max (tri sx.length) (tri sy.length) : ℕ) : ℚ) := by
    exact_mod_cast Nat.lt_of_lt_of_le Nat.zero_lt_one hden
  constructor
  · positivity
  · rw [div_le_one hdenQ]
    exact_mod_cast hnum

/-- Claim C8 (counterexample): the normalization bound fails as stated.
`edit.birnbaum_simil` takes the identity shortcut BEFORE consulting
`normal`, so `birnbaum_simil([0,1], [0,1], normal=True)` returns the raw
triangular number 3, which is not in `[0, 1]`. -/

theorem normal_bound_counterexample :
    edit.birnbaum_simil ([0, 1] : List ℕ) [0, 1] true = 3 ∧
      ¬edit.birnbaum_simil ([0, 1] : List ℕ) [0, 1] true ≤ 1 := by
  constructor
  · norm_num [edit.birnbaum_simil, tri]
  · norm_num [edit.birnbaum_simil, tri]

/-- Claim C8 (amended): for non-empty inputs, every `normal=True` result
lies in `[0, 1]`: this holds unconditionally for `levenshtein_dist`,
`levdamerau_dist`, `bulk_delete_dist` and `stemmatological_simil`
(which divide by `max(len_x, len_y)`; for the two deletion-block methods
assuming the library's `max_del_len ≥ 1`, since `max_del_len = 0` makes
the source raise or not terminate), and for `fragile_ends_simil`
(which divides by the max of the similarity and two self-comparisons);
for the normalized Birnbaum similarity of `edit.py` it holds exactly
when `x ≠ y` — on equal inputs the identity shortcut ignores `normal`
and returns the raw triangular number (see the counterexample). -/

theorem normal_bound_amended {α : Type} [DecidableEq α] [Inhabited α]
    (x y : List α) (hx : x ≠ []) (hy : y ≠ [])
    (max_del_len : ℕ) (hmdl : 1 ≤ max_del_len) (frag_start frag_end : ℚ) :
    (∃ q, edit.levenshtein_dist x y true = some q ∧ 0 ≤ q ∧ q ≤ 1) ∧
    (∃ q, edit.levdamerau_dist x y true = some q ∧ 0 ≤ q ∧ q ≤ 1) ∧
    (∃ q, edit.bulk_delete_dist x y max_del_len true = some q ∧
      0 ≤ q ∧ q ≤ 1) ∧
    (∃ q, edit.stemmatological_simil x y frag_start frag_end max_del_len true =
      some q ∧ 0 ≤ q ∧ q ≤ 1) ∧
    (∃ q, edit.fragile_ends_simil x y true = some q ∧ 0 ≤ q ∧ q ≤ 1) ∧
    (x ≠ y → 0 ≤ edit.birnbaum_simil x y true ∧
      edit.birnbaum_simil x y true ≤ 1) := by
  have hxl : 1 ≤ x.length := List.length_pos.mpr hx
  have hyl : 1 ≤ y.length := List.length_pos.mpr hy
  have hmax0 : ¬max x.length y.length = 0 := by
    have := Nat.le_max_left x.length y.length
    omega
  have hmaxQ : (0 : ℚ) < ((max x.length y.length : ℕ) : ℚ) := by
    have h1 : 1 ≤ max x.length y.length := le_trans hxl (Nat.le_max_left _ _)
    exact_mod_cast Nat.lt_of_lt_of_le Nat.zero_lt_one h1
  refine ⟨?_, ?_, ?_, ?_, ?_, ?_⟩
  · refine ⟨common._wagner_fischer x y (edit._levenshtein_costs x y)
      common.defaultSeed / ((max x.length y.length : ℕ) : ℚ), ?_, ?_, ?_⟩
    · simp [edit.levenshtein_dist, hmax0]
    · refine div_nonneg ?_ (le_of_lt hmaxQ)
      rw [common._wagner_fischer_eq_wfM]
      exact lev_wfM_nonneg x y x.length y.length
    · rw [div_le_one hmaxQ, common._wagner_fischer_eq_wfM]
      exact lev_wfM_le_max x y x.length y.length
  · refine ⟨common._wagner_fischer x y (edit._levdamerau_costs x y)
      common.defaultSeed / ((max x.length y.length : ℕ) : ℚ), ?_, ?_, ?_⟩
    · simp [edit.levdamerau_dist, hmax0]
    · refine div_nonneg ?_ (le_of_lt hmaxQ)
      rw [common._wagner_fischer_eq_wfM]
      exact levdam_wfM_nonneg x y x.length y.length
    · rw [div_le_one hmaxQ, common._wagner_fischer_eq_wfM]
      exact levdam_wfM_le_max x y x.length y.length
  · refine ⟨common._wagner_fischer x y (edit._bulk_delete_costs max_del_len x y)
      (edit._bulk_delete_initial_matrix x y max_del_len) /
      ((max x.length y.length : ℕ) : ℚ), ?_, ?_, ?_⟩
    · simp [edit.bulk_delete_dist, hmax0]
    · refine div_nonneg ?_ (le_of_lt hmaxQ)
      rw [common._wagner_fischer_eq_wfM]
      exact bulk_wfM_nonneg x y max_del_len x.length y.length
    · rw [div_le_one hmaxQ, common._wagner_fischer_eq_wfM]
      exact bulk_wfM_le_max x y max_del_len hmdl x.length y.length
  · refine ⟨common._wagner_fischer x y
      (edit._stemmatological_costs max_del_len frag_start frag_end x y)
      (edit._stemmatological_initial_matrix x y max_del_len frag_start frag_end) /
      ((max x.length y.length : ℕ) : ℚ), ?_, ?_, ?_⟩
    · simp [edit.stemmatological_simil, hmax0]
    · refine div_nonneg ?_ (le_of_lt hmaxQ)
      rw [common._wagner_fischer_eq_wfM]
      exact stem_wfM_nonneg x y max_del_len frag_start frag_end x.length y.length
    · rw [div_le_one hmaxQ, common._wagner_fischer_eq_wfM]
      exact stem_wfM_le_max x y max_del_len hmdl frag_start frag_end
        x.length y.length
  · have hsim0 : 0 ≤ edit.fragile_ends_raw x y := by
      unfold edit.fragile_ends_raw
      rw [common._wagner_fischer_eq_wfM]
      exact fragile_wfM_nonneg x y x.length y.length
    have hr1 : (y.length : ℚ) / 2 ≤ edit.fragile_ends_raw (x ++ y) x := by
      unfold edit.fragile_ends_raw
      rw [common._wagner_fischer_eq_wfM]
      have hge := fragile_wfM_ge (x ++ y) x (x ++ y).length x.length
      have hlen : (((x ++ y).length : ℕ) : ℚ) = (x.length : ℚ) + y.length := by
        push_cast [List.length_append]
        ring
      rw [hlen] at hge
      have harith : ((x.length : ℚ) + y.length - x.length) / 2 =
          (y.length : ℚ) / 2 := by ring
      rw [harith] at hge
      exact hge
    have hylQ : (0 : ℚ) < (y.length : ℚ) := by exact_mod_cast hyl
    have hdenpos : 0 < max (edit.fragile_ends_raw x y)
        (max (edit.fragile_ends_raw (x ++ y) x)
          (edit.fragile_ends_raw (x ++ y) y)) := by
      have h1 : (0 : ℚ) < edit.fragile_ends_raw (x ++ y) x :=
        lt_of_lt_of_le (by linarith) hr1
      exact lt_of_lt_of_le h1 (le_trans (le_max_left _ _) (le_max_right _ _))
    have hdenne : ¬max (edit.fragile_ends_raw x y)
        (max (edit.fragile_ends_raw (x ++ y) x)
          (edit.fragile_ends_raw (x ++ y) y)) = 0 := ne_of_gt hdenpos
    refine ⟨edit.fragile_ends_raw x y / max (edit.fragile_ends_raw x y)
        (max (edit.fragile_ends_raw (x ++ y) x)
          (edit.fragile_ends_raw (x ++ y) y)), ?_, ?_, ?_⟩
    · simp [edit.fragile_ends_simil, hdenne]
    · exact div_nonneg hsim0 (le_of_lt hdenpos)
    · rw [div_le_one hdenpos]
      exact le_max_left _ _
  · intro hxy
    by_cases hlen : x.length < y.length
    · simpa [edit.birnbaum_simil, hxy, hlen] using birnbaum_norm_aux y x hy
    · simpa [edit.birnbaum_simil, hxy, hlen] using birnbaum_norm_aux x y hx

/-- Witness for `normal_bound_amended`, applying it at `x = [0]`,
`y = [1]`, `max_del_len = 5`, `frag_start = frag_end = 10`. -/

theorem normal_bound_amended_witness :
    (([0] : List ℕ) ≠ []) ∧ (([1] : List ℕ) ≠ []) ∧ 1 ≤ 5 ∧
      (∃ q, edit.levenshtein_dist ([0] : List ℕ) [1] true = some q ∧
        0 ≤ q ∧ q ≤ 1) :=
  ⟨by decide, by decide, by decide,
    (normal_bound_amended ([0] : List ℕ) [1] (by decide) (by decide) 5
      (by decide) 10 10).1⟩

end Seqsim
